import Mathlib

/-!
# Verification of the stark-backend symbolic constraint DAG and quotient evaluator

This development shallowly embeds the core data structures and algorithms of the
`stark-backend` crate:

* the symbolic expression DAG (`air_builders/symbolic/dag.rs`): node type,
  pointer-identity-cached topological build, and rehydration to expression trees;
* the prover quotient constraint evaluator
  (`prover/quotient/evaluator.rs`, `prover/cpu/quotient/evaluator.rs`):
  the `PackedExpr` sum type, DAG interpretation, and the alpha-power accumulator;
* the per-RAP quotient value computation
  (`prover/quotient/single.rs`, `prover/cpu/quotient/single.rs`):
  pre-evaluation scan, row-view construction with cyclic wrap-around, and
  multiplication by the inverse-vanishing selector;
* the verifier constraint folder (`air_builders/verifier.rs`).

SIMD-packed values are modelled at single-lane granularity (`PackedVal` becomes
the base field `F`, `PackedChallenge` becomes the extension field `E`, with a
ring homomorphism `φ : F →+* E` standing for the base-to-extension embedding).
Rust machine integers indexing vectors are modelled as `Nat` (no arithmetic
overflows occur on indices in the source). Panics and unchecked (UB) accesses
are modelled with `Except String` and `Option` respectively.
-/

namespace StarkBackend

/-- `Entry` from `symbolic_variable.rs` (file not in the provided sources).
Modelled from the spec:
`entry ∈ {Preprocessed{offset}, Main{part_index, offset}, Public, Permutation{offset},
Challenge, Exposed}` with `offset` the row shift and `part_index` the main partition. -/
inductive Entry where
  | Preprocessed (offset : Nat)
  | Main (part_index : Nat) (offset : Nat)
  | Public
  | Permutation (offset : Nat)
  | Challenge
  | Exposed
deriving DecidableEq, Repr

/-- The row offset carried by an entry (0 for entries without a row shift). -/
def Entry.offsetOf : Entry → Nat
  | .Preprocessed o => o
  | .Main _ o => o
  | .Permutation o => o
  | _ => 0

/-- `SymbolicVariable` from `symbolic_variable.rs` (file not in the provided sources).
Modelled from the spec: a reference into the witness tables carrying `{entry, index}`. -/
structure SymbolicVariable (F : Type) where
  entry : Entry
  index : Nat
deriving DecidableEq, Repr

/-- `SymbolicExpressionNode` from `dag.rs`: a node of the serialized DAG, with
`Arc` references replaced by node indices. -/
inductive SymbolicExpressionNode (F : Type) where
  | Variable (v : SymbolicVariable F)
  | IsFirstRow
  | IsLastRow
  | IsTransition
  | Constant (c : F)
  | Add (left_idx right_idx degree_multiple : Nat)
  | Sub (left_idx right_idx degree_multiple : Nat)
  | Neg (idx degree_multiple : Nat)
  | Mul (left_idx right_idx degree_multiple : Nat)
deriving DecidableEq, Repr

/-- `SymbolicExpressionDag` from `dag.rs`: nodes in topological order plus the
indices of the nodes asserted to equal zero. -/
structure SymbolicExpressionDag (F : Type) where
  nodes : List (SymbolicExpressionNode F)
  constraint_idx : List Nat
deriving DecidableEq, Repr

/-- Child indices of a DAG node (empty for leaves). -/
def SymbolicExpressionNode.children : SymbolicExpressionNode F → List Nat
  | .Add l r _ => [l, r]
  | .Sub l r _ => [l, r]
  | .Neg x _ => [x]
  | .Mul l r _ => [l, r]
  | _ => []

/-- `SymbolicExpression` from `symbolic_expression.rs` (file not in the provided
sources). Modelled from the spec: an expression tree over a base field; this is
the fully unfolded value of an expression, with `Arc` sharing erased. -/
inductive SymbolicExpression (F : Type) where
  | Variable (v : SymbolicVariable F)
  | IsFirstRow
  | IsLastRow
  | IsTransition
  | Constant (c : F)
  | Add (x y : SymbolicExpression F) (degree_multiple : Nat)
  | Sub (x y : SymbolicExpression F) (degree_multiple : Nat)
  | Neg (x : SymbolicExpression F) (degree_multiple : Nat)
  | Mul (x y : SymbolicExpression F) (degree_multiple : Nat)
deriving DecidableEq, Repr

/-- A shape of one heap cell of a shared expression graph. Modelled from the spec:
the source's `SymbolicExpression` uses reference-counted `Arc` handles for
subterms; we make the heap explicit, so `x`, `y` of internal shapes are heap
addresses. Equality of shapes (structural on leaves, address-equality on
children of internal shapes) models the source's equality used as the
deduplication-cache key, which compares internal nodes by `Arc` pointer
identity and leaves by value. -/
inductive ExprShape (F : Type) where
  | Variable (v : SymbolicVariable F)
  | IsFirstRow
  | IsLastRow
  | IsTransition
  | Constant (c : F)
  | Add (x y degree_multiple : Nat)
  | Sub (x y degree_multiple : Nat)
  | Neg (x degree_multiple : Nat)
  | Mul (x y degree_multiple : Nat)
deriving DecidableEq, Repr

/-- Child heap addresses of a shape. -/
def ExprShape.childAddrs : ExprShape F → List Nat
  | .Add x y _ => [x, y]
  | .Sub x y _ => [x, y]
  | .Neg x _ => [x]
  | .Mul x y _ => [x, y]
  | _ => []

/-- An expression heap: cell `a` of the graph is `heap[a]`. An `Arc` graph is
acyclic, and any acyclic graph can be numbered so that children precede
parents; `heapWF` (below) captures exactly that numbering. -/
abbrev ExprHeap (F : Type) := List (ExprShape F)

/-- Auxiliary for `heapWF`: cell at absolute address `i + position` must point
strictly below itself. -/
def heapWFAux : Nat → ExprHeap F → Bool
  | _, [] => true
  | i, sh :: rest => (sh.childAddrs.all (· < i)) && heapWFAux (i + 1) rest

/-- Well-formedness of an expression heap: every cell's children live at
strictly smaller addresses (acyclicity of the `Arc` graph). -/
def heapWF (heap : ExprHeap F) : Bool := heapWFAux 0 heap

/-- The unfolded value tree of the cell at address `a`, with fuel (the fuel is
irrelevant as long as it exceeds `a`; see `denoteAddr_fuel_irrel`). -/
def denoteAddr (heap : ExprHeap F) : Nat → Nat → SymbolicExpression F
  | 0, _ => .IsFirstRow
  | fuel + 1, a =>
    match heap[a]? with
    | none => .IsFirstRow
    | some (.Variable v) => .Variable v
    | some .IsFirstRow => .IsFirstRow
    | some .IsLastRow => .IsLastRow
    | some .IsTransition => .IsTransition
    | some (.Constant c) => .Constant c
    | some (.Add x y d) => .Add (denoteAddr heap fuel x) (denoteAddr heap fuel y) d
    | some (.Sub x y d) => .Sub (denoteAddr heap fuel x) (denoteAddr heap fuel y) d
    | some (.Neg x d) => .Neg (denoteAddr heap fuel x) d
    | some (.Mul x y d) => .Mul (denoteAddr heap fuel x) (denoteAddr heap fuel y) d

/-- The value tree of the expression rooted at address `a`. -/
def denoteRoot (heap : ExprHeap F) (a : Nat) : SymbolicExpression F :=
  denoteAddr heap (a + 1) a

/-- Build state of `build_symbolic_expr_dag`: the `expr_to_idx` cache (the
source's `FxHashMap`, modelled as an association list with the most recent
insertion first, which matches insert-overwrites semantics) and the node
vector. -/
structure BuildState (F : Type) where
  expr_to_idx : List (ExprShape F × Nat)
  nodes : List (SymbolicExpressionNode F)

/-- Cache lookup, most recent entry first. -/
def lookupCache [DecidableEq F] : List (ExprShape F × Nat) → ExprShape F → Option Nat
  | [], _ => none
  | (k, i) :: rest, sh => if k = sh then some i else lookupCache rest sh

/-- Append the freshly built node and record its index in the cache, returning
the new index (the tail of `topological_sort_symbolic_expr` in `dag.rs`). -/
def pushNode [DecidableEq F] (sh : ExprShape F)
    (p : BuildState F × SymbolicExpressionNode F) : BuildState F × Nat :=
  (⟨(sh, p.1.nodes.length) :: p.1.expr_to_idx, p.1.nodes ++ [p.2]⟩, p.1.nodes.length)

/-- `topological_sort_symbolic_expr` from `dag.rs`: depth-first post-order with
an identity cache. The fuel argument totalizes the recursion over the heap; on
a well-formed heap every recursive call is at a strictly smaller address, so a
fuel exceeding the address makes the fuel guard unreachable. -/
def topoSortExpr [DecidableEq F] (heap : ExprHeap F) :
    Nat → Nat → BuildState F → BuildState F × Nat
  | 0, _, st => (st, 0)
  | fuel + 1, a, st =>
    match heap[a]? with
    | none => (st, 0)
    | some sh =>
      match lookupCache st.expr_to_idx sh with
      | some i => (st, i)
      | none =>
        pushNode sh <|
          match sh with
          | .Variable v => (st, .Variable v)
          | .IsFirstRow => (st, .IsFirstRow)
          | .IsLastRow => (st, .IsLastRow)
          | .IsTransition => (st, .IsTransition)
          | .Constant c => (st, .Constant c)
          | .Add x y d =>
            let p1 := topoSortExpr heap fuel x st
            let p2 := topoSortExpr heap fuel y p1.1
            (p2.1, .Add p1.2 p2.2 d)
          | .Sub x y d =>
            let p1 := topoSortExpr heap fuel x st
            let p2 := topoSortExpr heap fuel y p1.1
            (p2.1, .Sub p1.2 p2.2 d)
          | .Neg x d =>
            let p1 := topoSortExpr heap fuel x st
            (p1.1, .Neg p1.2 d)
          | .Mul x y d =>
            let p1 := topoSortExpr heap fuel x st
            let p2 := topoSortExpr heap fuel y p1.1
            (p2.1, .Mul p1.2 p2.2 d)

/-- Fold of `topoSortExpr` over the list of constraint roots, collecting each
root's node index. -/
def buildAux [DecidableEq F] (heap : ExprHeap F) :
    List Nat → BuildState F → BuildState F × List Nat
  | [], st => (st, [])
  | r :: rs, st =>
    let p := topoSortExpr heap heap.length r st
    let q := buildAux heap rs p.1
    (q.1, p.2 :: q.2)

/-- `build_symbolic_expr_dag` from `dag.rs`. -/
def build_symbolic_expr_dag [DecidableEq F] (heap : ExprHeap F) (roots : List Nat) :
    SymbolicExpressionDag F :=
  let p := buildAux heap roots ⟨[], []⟩
  ⟨p.1.nodes, p.2⟩

/-- One step of the rehydration walk of `to_symbolic_expressions`: build the
expression of a node from the expressions of earlier nodes. -/
def nodeToExpr (exprs : List (SymbolicExpression F)) :
    SymbolicExpressionNode F → SymbolicExpression F
  | .Variable v => .Variable v
  | .IsFirstRow => .IsFirstRow
  | .IsLastRow => .IsLastRow
  | .IsTransition => .IsTransition
  | .Constant c => .Constant c
  | .Add l r d => .Add (exprs.getD l .IsFirstRow) (exprs.getD r .IsFirstRow) d
  | .Sub l r d => .Sub (exprs.getD l .IsFirstRow) (exprs.getD r .IsFirstRow) d
  | .Neg x d => .Neg (exprs.getD x .IsFirstRow) d
  | .Mul l r d => .Mul (exprs.getD l .IsFirstRow) (exprs.getD r .IsFirstRow) d

/-- The expression of every node, walked in index order (`to_symbolic_expressions`
main loop in `dag.rs`). -/
def dagExprsAux : List (SymbolicExpressionNode F) →
    List (SymbolicExpression F) → List (SymbolicExpression F)
  | [], acc => acc
  | n :: ns, acc => dagExprsAux ns (acc ++ [nodeToExpr acc n])

/-- The expression assigned to node index `i` by the rehydration walk. -/
def dagGet (nodes : List (SymbolicExpressionNode F)) (i : Nat) : SymbolicExpression F :=
  (dagExprsAux nodes []).getD i .IsFirstRow

/-- `SymbolicExpressionDag::to_symbolic_expressions` from `dag.rs`. -/
def SymbolicExpressionDag.to_symbolic_expressions (dag : SymbolicExpressionDag F) :
    List (SymbolicExpression F) :=
  dag.constraint_idx.map (fun i => dagGet dag.nodes i)

/-! ## Serialization

Modelled from the spec: the byte encoding of the DAG is serde-derived and its
concrete format is not among the provided sources; the spec only requires that
"a round-trip through any byte encoding must reproduce node-for-node and
index-for-index equality". We therefore fix a canonical token encoding of the
DAG structure (parameterized by an encoding of the field) and prove it
round-trips. -/

/-- Modelled from the spec: token encoding of an `Entry`. -/
def encodeEntry : Entry → List Nat
  | .Preprocessed o => [0, o]
  | .Main p o => [1, p, o]
  | .Public => [2]
  | .Permutation o => [3, o]
  | .Challenge => [4]
  | .Exposed => [5]

/-- Modelled from the spec: decoder matching `encodeEntry`, returning the entry
and the remaining tokens. -/
def decodeEntry : List Nat → Option (Entry × List Nat)
  | 0 :: o :: rest => some (.Preprocessed o, rest)
  | 1 :: p :: o :: rest => some (.Main p o, rest)
  | 2 :: rest => some (.Public, rest)
  | 3 :: o :: rest => some (.Permutation o, rest)
  | 4 :: rest => some (.Challenge, rest)
  | 5 :: rest => some (.Exposed, rest)
  | _ => none

/-- Modelled from the spec: token encoding of one DAG node, given a field
encoder `encF`. -/
def encodeNode (encF : F → Nat) : SymbolicExpressionNode F → List Nat
  | .Variable v => 0 :: (encodeEntry v.entry ++ [v.index])
  | .IsFirstRow => [1]
  | .IsLastRow => [2]
  | .IsTransition => [3]
  | .Constant c => [4, encF c]
  | .Add l r d => [5, l, r, d]
  | .Sub l r d => [6, l, r, d]
  | .Neg x d => [7, x, d]
  | .Mul l r d => [8, l, r, d]

/-- Modelled from the spec: decoder matching `encodeNode`. -/
def decodeNode (decF : Nat → Option F) : List Nat → Option (SymbolicExpressionNode F × List Nat)
  | 0 :: rest => do
    let (e, rest1) ← decodeEntry rest
    match rest1 with
    | idx :: rest2 => some (.Variable ⟨e, idx⟩, rest2)
    | [] => none
  | 1 :: rest => some (.IsFirstRow, rest)
  | 2 :: rest => some (.IsLastRow, rest)
  | 3 :: rest => some (.IsTransition, rest)
  | 4 :: c :: rest => do
    let cv ← decF c
    some (.Constant cv, rest)
  | 5 :: l :: r :: d :: rest => some (.Add l r d, rest)
  | 6 :: l :: r :: d :: rest => some (.Sub l r d, rest)
  | 7 :: x :: d :: rest => some (.Neg x d, rest)
  | 8 :: l :: r :: d :: rest => some (.Mul l r d, rest)
  | _ => none

/-- Modelled from the spec: decode a counted sequence of nodes. -/
def decodeNodes (decF : Nat → Option F) :
    Nat → List Nat → Option (List (SymbolicExpressionNode F) × List Nat)
  | 0, rest => some ([], rest)
  | n + 1, l => do
    let (nd, rest) ← decodeNode decF l
    let (nds, rest2) ← decodeNodes decF n rest
    some (nd :: nds, rest2)

/-- Modelled from the spec: decode a counted sequence of naturals (the
constraint indices). -/
def decodeNats : Nat → List Nat → Option (List Nat × List Nat)
  | 0, rest => some ([], rest)
  | n + 1, l =>
    match l with
    | [] => none
    | x :: rest => do
      let (xs, rest2) ← decodeNats n rest
      some (x :: xs, rest2)

/-- Modelled from the spec: the canonical token encoding of a DAG. -/
def encodeDag (encF : F → Nat) (dag : SymbolicExpressionDag F) : List Nat :=
  dag.nodes.length :: ((dag.nodes.map (encodeNode encF)).flatten ++
    dag.constraint_idx.length :: dag.constraint_idx)

/-- Modelled from the spec: the decoder matching `encodeDag`. -/
def decodeDag (decF : Nat → Option F) (l : List Nat) : Option (SymbolicExpressionDag F) :=
  match l with
  | [] => none
  | n :: rest => do
    let (nds, rest1) ← decodeNodes decF n rest
    match rest1 with
    | [] => none
    | m :: rest2 => do
      let (cidx, _) ← decodeNats m rest2
      some ⟨nds, cidx⟩

/-! ## PackedExpr and its arithmetic

From `prover/quotient/evaluator.rs` and `prover/cpu/quotient/evaluator.rs`
(the two files define identical `PackedExpr` arithmetic). Packed values are
modelled at lane granularity: `PackedVal` is `F`, `PackedChallenge` is `E`,
and the `Into` lift from packed base values to packed extension values is a
ring homomorphism `φ : F →+* E`. -/

/-- `PackedExpr`: the evaluator output sum type. -/
inductive PackedExpr (F E : Type) where
  | Val (x : F)
  | Challenge (x : E)
deriving DecidableEq, Repr

variable {F E : Type}

/-- Whether a `PackedExpr` is in the `Challenge` variant. -/
def PackedExpr.isChallenge : PackedExpr F E → Bool
  | .Val _ => false
  | .Challenge _ => true

/-- The extension-field value of a `PackedExpr` under the lift `φ`. -/
def PackedExpr.unpack [CommRing F] [CommRing E] (φ : F →+* E) : PackedExpr F E → E
  | .Val x => φ x
  | .Challenge x => x

/-- `Add for PackedExpr`: mixed cases lift the base value through `φ`
(the source's `y + x` with `y : PackedChallenge` and `x : PackedVal`). -/
def PackedExpr.add [CommRing F] [CommRing E] (φ : F →+* E) :
    PackedExpr F E → PackedExpr F E → PackedExpr F E
  | .Val x, .Val y => .Val (x + y)
  | .Val x, .Challenge y => .Challenge (y + φ x)
  | .Challenge x, .Val y => .Challenge (x + φ y)
  | .Challenge x, .Challenge y => .Challenge (x + y)

/-- `Sub for PackedExpr`: in the `Val - Challenge` case the source first lifts
the left operand (`let x: PackedChallenge<SC> = x.into()`), then subtracts. -/
def PackedExpr.sub [CommRing F] [CommRing E] (φ : F →+* E) :
    PackedExpr F E → PackedExpr F E → PackedExpr F E
  | .Val x, .Val y => .Val (x - y)
  | .Val x, .Challenge y => .Challenge (φ x - y)
  | .Challenge x, .Val y => .Challenge (x - φ y)
  | .Challenge x, .Challenge y => .Challenge (x - y)

/-- `Mul for PackedExpr` (the source's `y * x` scalar product is coefficientwise
multiplication by the base value, i.e. multiplication by `φ x`). -/
def PackedExpr.mul [CommRing F] [CommRing E] (φ : F →+* E) :
    PackedExpr F E → PackedExpr F E → PackedExpr F E
  | .Val x, .Val y => .Val (x * y)
  | .Val x, .Challenge y => .Challenge (y * φ x)
  | .Challenge x, .Val y => .Challenge (x * φ y)
  | .Challenge x, .Challenge y => .Challenge (x * y)

/-- `Neg for PackedExpr`. -/
def PackedExpr.neg [CommRing F] [CommRing E] : PackedExpr F E → PackedExpr F E
  | .Val x => .Val (-x)
  | .Challenge x => .Challenge (-x)

/-! ## Quotient evaluator context

From `prover/quotient/single.rs` / `prover/cpu/quotient/single.rs` and the
corresponding `evaluator.rs` files. Matrices are modelled with an explicit
width and height and a total cell function (`get_unchecked` on an in-bounds
index reads the cell; bounds are the evaluator's responsibility, as in the
source). After-challenge matrices are modelled directly over the extension
field: the source stores them base-flattened with `width = ext_width * D` and
reassembles extension elements with `from_base_fn`; the `[F; D]` layout
reassembly is the identity at this level of abstraction. -/

/-- A row-major matrix view: `data r c` is the cell at row `r`, column `c`. -/
structure Mat (T : Type) where
  width : Nat
  height : Nat
  data : Nat → Nat → T

/-- The empty matrix a missing preprocessed trace is replaced by. -/
def Mat.empty [Zero T] : Mat T := ⟨0, 0, fun _ _ => (0 : T)⟩

/-- `ViewPair` from the prover quotient evaluators: the packed values of one
matrix at the local row and, when materialized, at the next row. -/
structure ViewPair (T : Type) where
  locl : List T
  next : Option (List T)

/-- `ViewPair::get`: row offset 0 reads the local row, 1 the next row; other
offsets panic (`none`). A `none` result models the source's undefined behavior
or panic on an unchecked access. -/
def ViewPair.get (vp : ViewPair T) (row_offset column_idx : Nat) : Option T :=
  match row_offset with
  | 0 => vp.locl[column_idx]?
  | 1 => vp.next.bind (·[column_idx]?)
  | _ => none

/-- `ProverConstraintEvaluator`: the per-row view of all inputs. -/
structure ProverConstraintEvaluator (F E : Type) where
  preprocessed : ViewPair F
  partitioned_main : List (ViewPair F)
  after_challenge : List (ViewPair E)
  challenges : List (List E)
  is_first_row : F
  is_last_row : F
  is_transition : F
  public_values : List F
  exposed_values_after_challenge : List (List E)

/-- Wrap an optional value into `Except`, with `msg` as the panic message. -/
def ofOption (msg : String) : Option A → Except String A
  | some a => .ok a
  | none => .error msg

/-- `ProverConstraintEvaluator::eval_var` from `prover/quotient/evaluator.rs`:
table lookups wrapped as `Val` or `Challenge`; a missing challenge phase on a
`Challenge` or `Exposed` entry panics with "Challenge phase not supported";
all other failures are out-of-bounds accesses. -/
def evalVarE (r : ProverConstraintEvaluator F E) (v : SymbolicVariable F) :
    Except String (PackedExpr F E) :=
  match v.entry with
  | .Preprocessed offset =>
    ofOption "index out of bounds" ((r.preprocessed.get offset v.index).map .Val)
  | .Main part offset =>
    ofOption "index out of bounds"
      ((r.partitioned_main[part]?.bind (·.get offset v.index)).map .Val)
  | .Public =>
    ofOption "index out of bounds" ((r.public_values[v.index]?).map .Val)
  | .Permutation offset =>
    ofOption "index out of bounds"
      ((r.after_challenge[0]?.bind (·.get offset v.index)).map .Challenge)
  | .Challenge =>
    match r.challenges[0]? with
    | none => .error "Challenge phase not supported"
    | some cs => ofOption "index out of bounds" ((cs[v.index]?).map .Challenge)
  | .Exposed =>
    match r.exposed_values_after_challenge[0]? with
    | none => .error "Challenge phase not supported"
    | some es => ofOption "index out of bounds" ((es[v.index]?).map .Challenge)

/-- Total variable evaluation: the per-row loops run after the scan has
guaranteed success, so the default is never produced on checked inputs. -/
def evalVarD [CommRing F] (r : ProverConstraintEvaluator F E) (v : SymbolicVariable F) :
    PackedExpr F E :=
  ((evalVarE r v).toOption).getD (.Val 0)

/-- One step of the node-evaluation loop (`eval_nodes` / `eval_nodes_mut`):
build the value of a node from the values of earlier nodes. -/
def evalNodeStep [CommRing F] [CommRing E] (φ : F →+* E)
    (r : ProverConstraintEvaluator F E) (acc : List (PackedExpr F E)) :
    SymbolicExpressionNode F → PackedExpr F E
  | .Variable v => evalVarD r v
  | .IsFirstRow => .Val r.is_first_row
  | .IsLastRow => .Val r.is_last_row
  | .IsTransition => .Val r.is_transition
  | .Constant c => .Val c
  | .Add l ri _ => PackedExpr.add φ (acc.getD l (.Val 0)) (acc.getD ri (.Val 0))
  | .Sub l ri _ => PackedExpr.sub φ (acc.getD l (.Val 0)) (acc.getD ri (.Val 0))
  | .Neg x _ => PackedExpr.neg (acc.getD x (.Val 0))
  | .Mul l ri _ => PackedExpr.mul φ (acc.getD l (.Val 0)) (acc.getD ri (.Val 0))

/-- The node-evaluation loop, walking nodes in (topological) index order. -/
def evalNodesAux [CommRing F] [CommRing E] (φ : F →+* E)
    (r : ProverConstraintEvaluator F E) :
    List (SymbolicExpressionNode F) → List (PackedExpr F E) → List (PackedExpr F E)
  | [], acc => acc
  | n :: ns, acc => evalNodesAux φ r ns (acc ++ [evalNodeStep φ r acc n])

/-- Values of every DAG node at the current row. -/
def evalNodes [CommRing F] [CommRing E] (φ : F →+* E)
    (r : ProverConstraintEvaluator F E) (nodes : List (SymbolicExpressionNode F)) :
    List (PackedExpr F E) :=
  evalNodesAux φ r nodes []

/-- The body of the accumulator loop: `accumulator += alpha_pow * x`, with the
`Val` case multiplying through the base-to-extension embedding. -/
def accStep [CommRing F] [CommRing E] (φ : F →+* E) (evals : List (PackedExpr F E))
    (acc : E) (p : E × Nat) : E :=
  match evals.getD p.2 (.Val 0) with
  | .Val x => acc + p.1 * φ x
  | .Challenge x => acc + p.1 * x

/-- `ProverConstraintEvaluator::accumulate` from `prover/quotient/evaluator.rs`:
`alpha_powers` documented as highest power first, zipped with `constraint_idx`
in order. -/
def accumulate [CommRing F] [CommRing E] (φ : F →+* E)
    (r : ProverConstraintEvaluator F E) (dag : SymbolicExpressionDag F)
    (alpha_powers : List E) : E :=
  let evals := evalNodes φ r dag.nodes
  (alpha_powers.zip dag.constraint_idx).foldl (accStep φ evals) 0

/-- `ProverConstraintEvaluator::accumulate` from
`prover/cpu/quotient/evaluator.rs`: `alpha_powers` documented as increasing
order (`alpha^0, alpha^1, ...`), zipped with `constraint_idx.iter().rev()`. -/
def accumulateCpu [CommRing F] [CommRing E] (φ : F →+* E)
    (r : ProverConstraintEvaluator F E) (dag : SymbolicExpressionDag F)
    (alpha_powers : List E) : E :=
  let evals := evalNodes φ r dag.nodes
  (alpha_powers.zip dag.constraint_idx.reverse).foldl (accStep φ evals) 0

/-- The inputs of `compute_single_rap_quotient_values` for one RAP. -/
structure QuotientInput (F E : Type) where
  preprocessed : Option (Mat F)
  partitioned_main : List (Mat F)
  after_challenge : List (Mat E)
  challenges : List (List E)
  public_values : List F
  exposed_values : List (List E)

/-- `preprocessed_width`: width of the preprocessed matrix, 0 when absent. -/
def QuotientInput.preprocessedWidth [Zero F] (inp : QuotientInput F E) : Nat :=
  (inp.preprocessed.map (·.width)).getD 0

/-- The selector vectors over the quotient domain
(`trace_domain.selectors_on_coset(quotient_domain)`, supplied by the PCS). -/
structure Selectors (F : Type) where
  is_first_row : List F
  is_last_row : List F
  is_transition : List F
  inv_zeroifier : List F

/-- One matrix's `ViewPair` at the wrapped local/next rows: the local row is
always materialized, the next row only when `needs_next`. -/
def mkViewPair (m : Mat T) (li ni : Nat) (needs_next : Bool) : ViewPair T :=
  ⟨(List.range m.width).map (fun c => m.data li c),
   if needs_next then some ((List.range m.width).map (fun c => m.data ni c)) else none⟩

/-- The per-row evaluator built by `compute_single_rap_quotient_values`
(`prover/quotient/single.rs`, single lane): rows are wrapped modulo the
quotient-domain size, the next row is `next_step` further, selectors are read
at the unwrapped row index. -/
def mkRowEvaluator [CommRing F] [CommRing E] (inp : QuotientInput F E)
    (sels : Selectors F) (quotient_size next_step : Nat) (needs_next : Bool)
    (i : Nat) : ProverConstraintEvaluator F E :=
  let wrap := fun j => j % quotient_size
  let li := wrap i
  let ni := wrap (i + next_step)
  { preprocessed := mkViewPair (inp.preprocessed.getD Mat.empty) li ni needs_next
    partitioned_main := inp.partitioned_main.map (fun m => mkViewPair m li ni needs_next)
    after_challenge := inp.after_challenge.map (fun m => mkViewPair m li ni needs_next)
    challenges := inp.challenges
    is_first_row := sels.is_first_row.getD i 0
    is_last_row := sels.is_last_row.getD i 0
    is_transition := sels.is_transition.getD i 0
    public_values := inp.public_values
    exposed_values_after_challenge := inp.exposed_values }

/-- The per-node body of the pre-evaluation scan of
`prover/cpu/quotient/single.rs` (lines 100-153): track the maximum row offset
and assert every index against its target; a missing challenge phase panics
with "Challenge phase not supported". `qs` is the quotient-domain size. -/
def scanNodeCpu [Zero F] (inp : QuotientInput F E) (qs : Nat)
    (node : SymbolicExpressionNode F) (rot : Nat) : Except String Nat :=
  match node with
  | .Variable v =>
    match v.entry with
    | .Preprocessed offset =>
      if v.index < inp.preprocessedWidth then
        match inp.preprocessed with
        | some m => if qs ≤ m.height then .ok (max rot offset) else .error "assertion failed"
        | none => .error "called unwrap on None"
      else .error "assertion failed"
    | .Main part offset =>
      match inp.partitioned_main[part]? with
      | some m => if v.index < m.width then .ok (max rot offset) else .error "assertion failed"
      | none => .error "index out of bounds"
    | .Public =>
      if v.index < inp.public_values.length then .ok rot else .error "assertion failed"
    | .Permutation offset =>
      match inp.after_challenge[0]? with
      | some m => if v.index < m.width then .ok (max rot offset) else .error "assertion failed"
      | none => .error "Challenge phase not supported"
    | .Challenge =>
      match inp.challenges[0]? with
      | some cs => if v.index < cs.length then .ok rot else .error "assertion failed"
      | none => .error "Challenge phase not supported"
    | .Exposed =>
      match inp.exposed_values[0]? with
      | some es => if v.index < es.length then .ok rot else .error "assertion failed"
      | none => .error "Challenge phase not supported"
  | _ => .ok rot

/-- The full pre-evaluation scan of the cpu quotient computation. -/
def scanNodesCpu [Zero F] (inp : QuotientInput F E) (qs : Nat) :
    List (SymbolicExpressionNode F) → Nat → Except String Nat
  | [], rot => .ok rot
  | n :: ns, rot =>
    match scanNodeCpu inp qs n rot with
    | .error e => .error e
    | .ok rot2 => scanNodesCpu inp qs ns rot2

/-- The per-node body of the pre-evaluation scan of `prover/quotient/single.rs`
(lines 78-102): only `Preprocessed`, `Main` and `Permutation` entries are
checked there; the remaining entries fall through (`_ => {}`). -/
def scanNodeSimple [Zero F] (inp : QuotientInput F E)
    (node : SymbolicExpressionNode F) (rot : Nat) : Except String Nat :=
  match node with
  | .Variable v =>
    match v.entry with
    | .Preprocessed offset =>
      if v.index < inp.preprocessedWidth then .ok (max rot offset)
      else .error "assertion failed"
    | .Main part offset =>
      match inp.partitioned_main[part]? with
      | some m => if v.index < m.width then .ok (max rot offset) else .error "assertion failed"
      | none => .error "index out of bounds"
    | .Permutation offset =>
      match inp.after_challenge[0]? with
      | some m => if v.index < m.width then .ok (max rot offset) else .error "assertion failed"
      | none => .error "Challenge phase not supported"
    | _ => .ok rot
  | _ => .ok rot

/-- The scan loop of `prover/quotient/single.rs`. -/
def scanNodesSimple [Zero F] (inp : QuotientInput F E) :
    List (SymbolicExpressionNode F) → Nat → Except String Nat
  | [], rot => .ok rot
  | n :: ns, rot =>
    match scanNodeSimple inp n rot with
    | .error e => .error e
    | .ok rot2 => scanNodesSimple inp ns rot2

/-- `compute_single_rap_quotient_values` from `prover/quotient/single.rs`,
single lane (`WIDTH = 1`): reversed alpha powers (highest first), the scan,
then per quotient-domain row the accumulated constraints times the
inverse-zeroifier selector. The final transpose of packed coefficients into
scalar extension elements is the identity at one lane. -/
def computeSingleRapQuotientValues [CommRing F] [CommRing E] (φ : F →+* E)
    (dag : SymbolicExpressionDag F) (inp : QuotientInput F E) (sels : Selectors F)
    (quotient_size trace_height : Nat) (α : E) : Except String (List E) :=
  let next_step := quotient_size / trace_height
  let numC := dag.constraint_idx.length
  let alpha_powers := ((List.range numC).map (fun k => α ^ k)).reverse
  match scanNodesSimple inp dag.nodes 0 with
  | .error e => .error e
  | .ok rot =>
    let needs_next := decide (0 < rot)
    .ok ((List.range quotient_size).map (fun i =>
      accumulate φ (mkRowEvaluator inp sels quotient_size next_step needs_next i)
          dag alpha_powers *
        φ (sels.inv_zeroifier.getD i 0)))

/-- `quot_row_idx` from `prover/cpu/quotient/single.rs` (line 222): the
quotient-domain row feeding lane `offset` of the current fat row of chunk
`chunk_idx`. -/
def quotRowIdxCpu (chunk_idx quotient_degree quotient_size row_idx offset : Nat) : Nat :=
  (chunk_idx + (row_idx + offset) * quotient_degree) % quotient_size

/-- `wrap` from `prover/quotient/single.rs` (line 109). -/
def wrapIdx (quotient_size i : Nat) : Nat := i % quotient_size

/-! ## Verifier constraint folder

From `air_builders/verifier.rs`. At the model level the variable, expression
and challenge types all collapse to the extension field `E`; the `From<F>`
injection used for `Constant` nodes is the embedding `φ`. -/

/-- A vertical pair of opened rows, as used by the verifier
(`ViewPair<'a, Var>` of `air_builders`). -/
structure VViewPair (E : Type) where
  locl : List E
  next : List E

/-- Row-offset access into a verifier view pair. -/
def VViewPair.get (vp : VViewPair E) (row_offset column_idx : Nat) : Option E :=
  match row_offset with
  | 0 => vp.locl[column_idx]?
  | 1 => vp.next[column_idx]?
  | _ => none

/-- `GenericVerifierConstraintFolder`, specialized as in `VerifierConstraintFolder`. -/
structure VerifierFolder (E : Type) where
  preprocessed : VViewPair E
  partitioned_main : List (VViewPair E)
  after_challenge : List (VViewPair E)
  challenges : List (List E)
  is_first_row : E
  is_last_row : E
  is_transition : E
  alpha : E
  accumulator : E
  public_values : List E
  exposed_values_after_challenge : List (List E)

/-- `GenericVerifierConstraintFolder::eval_var`: all three challenge-phase
entries panic with "Challenge phase not supported" when the phase is absent. -/
def verifierEvalVarE (vc : VerifierFolder E) (v : SymbolicVariable F) :
    Except String E :=
  match v.entry with
  | .Preprocessed offset =>
    ofOption "index out of bounds" (vc.preprocessed.get offset v.index)
  | .Main part offset =>
    ofOption "index out of bounds" (vc.partitioned_main[part]?.bind (·.get offset v.index))
  | .Public => ofOption "index out of bounds" (vc.public_values[v.index]?)
  | .Permutation offset =>
    match vc.after_challenge[0]? with
    | none => .error "Challenge phase not supported"
    | some p => ofOption "index out of bounds" (p.get offset v.index)
  | .Challenge =>
    match vc.challenges[0]? with
    | none => .error "Challenge phase not supported"
    | some cs => ofOption "index out of bounds" (cs[v.index]?)
  | .Exposed =>
    match vc.exposed_values_after_challenge[0]? with
    | none => .error "Challenge phase not supported"
    | some es => ofOption "index out of bounds" (es[v.index]?)

/-- Total verifier variable evaluation (defaults on the unreachable panics). -/
def verifierEvalVarD [CommRing E] (vc : VerifierFolder E) (v : SymbolicVariable F) : E :=
  ((verifierEvalVarE vc v).toOption).getD 0

/-- One step of the verifier's node-evaluation loop in `eval_constraints`. -/
def verifierNodeStep [CommRing F] [CommRing E] (φ : F →+* E) (vc : VerifierFolder E)
    (acc : List E) : SymbolicExpressionNode F → E
  | .Variable v => verifierEvalVarD vc v
  | .IsFirstRow => vc.is_first_row
  | .IsLastRow => vc.is_last_row
  | .IsTransition => vc.is_transition
  | .Constant c => φ c
  | .Add l ri _ => acc.getD l 0 + acc.getD ri 0
  | .Sub l ri _ => acc.getD l 0 - acc.getD ri 0
  | .Neg x _ => -(acc.getD x 0)
  | .Mul l ri _ => acc.getD l 0 * acc.getD ri 0

/-- The verifier's node-evaluation loop. -/
def verifierEvalNodesAux [CommRing F] [CommRing E] (φ : F →+* E) (vc : VerifierFolder E) :
    List (SymbolicExpressionNode F) → List E → List E
  | [], acc => acc
  | n :: ns, acc => verifierEvalNodesAux φ vc ns (acc ++ [verifierNodeStep φ vc acc n])

/-- `assert_zero`: Horner step of the verifier accumulator. -/
def assertZeroStep [CommRing E] (α acc x : E) : E := acc * α + x

/-- `GenericVerifierConstraintFolder::eval_constraints` from
`air_builders/verifier.rs`: build the DAG from the constraint roots, evaluate
every node in topological order, then fold each constraint into the
accumulator with `assert_zero`. Returns the final accumulator. -/
def evalConstraintsVerifier [CommRing F] [CommRing E] [DecidableEq F] (φ : F →+* E)
    (vc : VerifierFolder E) (heap : ExprHeap F) (roots : List Nat) : E :=
  let dag := build_symbolic_expr_dag heap roots
  let exprs := verifierEvalNodesAux φ vc dag.nodes []
  dag.constraint_idx.foldl (fun acc idx => assertZeroStep vc.alpha acc (exprs.getD idx 0))
    vc.accumulator

/-- `l2` extends `l1` on the right. -/
def ListGrows (l1 l2 : List A) : Prop := ∃ t, l2 = l1 ++ t


/-- The value tree of one shape, with children denoted from the heap. -/
def denoteShapeTop (heap : ExprHeap F) : ExprShape F → SymbolicExpression F
  | .Variable v => .Variable v
  | .IsFirstRow => .IsFirstRow
  | .IsLastRow => .IsLastRow
  | .IsTransition => .IsTransition
  | .Constant c => .Constant c
  | .Add x y d => .Add (denoteRoot heap x) (denoteRoot heap y) d
  | .Sub x y d => .Sub (denoteRoot heap x) (denoteRoot heap y) d
  | .Neg x d => .Neg (denoteRoot heap x) d
  | .Mul x y d => .Mul (denoteRoot heap x) (denoteRoot heap y) d


/-- Invariant of the DAG build state: nodes reference strictly earlier nodes,
and every cache entry points at an existing node whose rehydrated expression is
the value of the cached shape. -/
def BuildInv (heap : ExprHeap F) (st : BuildState F) : Prop :=
  (∀ i (h : i < st.nodes.length),
    ∀ j ∈ (st.nodes.get ⟨i, h⟩).children, j < i) ∧
  (∀ p ∈ st.expr_to_idx, p.2 < st.nodes.length ∧
    dagGet st.nodes p.2 = denoteShapeTop heap p.1)


/-! ## Helper lemmas -/

theorem ListGrows.refl (l : List A) : ListGrows l l := ⟨[], by simp⟩

theorem ListGrows.trans {l1 l2 l3 : List A} (h1 : ListGrows l1 l2) (h2 : ListGrows l2 l3) :
    ListGrows l1 l3 := by
  obtain ⟨t1, rfl⟩ := h1
  obtain ⟨t2, rfl⟩ := h2
  exact ⟨t1 ++ t2, by simp⟩

theorem ListGrows.append (l t : List A) : ListGrows l (l ++ t) := ⟨t, rfl⟩

theorem ListGrows.length_le {l1 l2 : List A} (h : ListGrows l1 l2) :
    l1.length ≤ l2.length := by
  obtain ⟨t, rfl⟩ := h
  simp

theorem ListGrows.getD_eq {l1 l2 : List A} (h : ListGrows l1 l2) {i : Nat}
    (hi : i < l1.length) (d : A) : l2.getD i d = l1.getD i d := by
  obtain ⟨t, rfl⟩ := h
  simp [List.getD, List.getElem?_append_left hi]

theorem getD_concat_length (l : List A) (x d : A) : (l ++ [x]).getD l.length d = x := by
  simp [List.getD, List.getElem?_concat_length]

theorem lookupCache_mem [DecidableEq F] {c : List (ExprShape F × Nat)} {sh : ExprShape F}
    {i : Nat} (h : lookupCache c sh = some i) : (sh, i) ∈ c := by
  induction c with
  | nil => simp [lookupCache] at h
  | cons p rest ih =>
    rw [lookupCache] at h
    split at h
    · rename_i heq
      obtain ⟨rfl⟩ := Option.some_inj.mp h
      simp [← heq]
    · exact List.mem_cons_of_mem _ (ih h)

theorem dagExprsAux_append (ns ms : List (SymbolicExpressionNode F))
    (acc : List (SymbolicExpression F)) :
    dagExprsAux (ns ++ ms) acc = dagExprsAux ms (dagExprsAux ns acc) := by
  induction ns generalizing acc with
  | nil => simp [dagExprsAux]
  | cons n ns ih => simp [dagExprsAux, ih]

theorem dagExprsAux_grows (ns : List (SymbolicExpressionNode F))
    (acc : List (SymbolicExpression F)) : ListGrows acc (dagExprsAux ns acc) := by
  induction ns generalizing acc with
  | nil => exact ListGrows.refl _
  | cons n ns ih =>
    rw [dagExprsAux]
    exact (ListGrows.append acc [nodeToExpr acc n]).trans (ih _)

theorem dagExprsAux_length (ns : List (SymbolicExpressionNode F))
    (acc : List (SymbolicExpression F)) :
    (dagExprsAux ns acc).length = acc.length + ns.length := by
  induction ns generalizing acc with
  | nil => simp [dagExprsAux]
  | cons n ns ih => rw [dagExprsAux, ih]; simp; omega

theorem dagGet_grows {nodes nodes2 : List (SymbolicExpressionNode F)}
    (h : ListGrows nodes nodes2) {i : Nat} (hi : i < nodes.length) :
    dagGet nodes2 i = dagGet nodes i := by
  obtain ⟨t, rfl⟩ := h
  rw [dagGet, dagGet, dagExprsAux_append]
  exact (dagExprsAux_grows t (dagExprsAux nodes [])).getD_eq
    (by rw [dagExprsAux_length]; simpa using hi) _

theorem dagGet_push (nodes : List (SymbolicExpressionNode F))
    (n : SymbolicExpressionNode F) :
    dagGet (nodes ++ [n]) nodes.length = nodeToExpr (dagExprsAux nodes []) n := by
  rw [dagGet, dagExprsAux_append]
  rw [show dagExprsAux [n] (dagExprsAux nodes []) =
    dagExprsAux nodes [] ++ [nodeToExpr (dagExprsAux nodes []) n] from rfl]
  have hlen : (dagExprsAux nodes []).length = nodes.length := by
    rw [dagExprsAux_length]; simp
  rw [← hlen, getD_concat_length]

theorem dagGet_def (nodes : List (SymbolicExpressionNode F)) (i : Nat) :
    (dagExprsAux nodes []).getD i SymbolicExpression.IsFirstRow = dagGet nodes i := rfl

theorem heapWFAux_get {heap : ExprHeap F} :
    ∀ {k j : Nat} {sh : ExprShape F}, heapWFAux k heap = true → heap[j]? = some sh →
      ∀ c ∈ sh.childAddrs, c < k + j := by
  induction heap with
  | nil => intro k j sh _ hj; simp at hj
  | cons s rest ih =>
    intro k j sh hwf hj c hc
    rw [heapWFAux, Bool.and_eq_true] at hwf
    match j with
    | 0 =>
      obtain rfl : s = sh := by simpa using hj
      have := List.all_eq_true.mp hwf.1 c hc
      simpa using Nat.lt_of_lt_of_le (by simpa using this) (Nat.le_add_right k 0)
    | j + 1 =>
      have hj2 : rest[j]? = some sh := by simpa using hj
      have := ih hwf.2 hj2 c hc
      omega

theorem heapWF_children {heap : ExprHeap F} {a : Nat} {sh : ExprShape F}
    (hwf : heapWF heap = true) (ha : heap[a]? = some sh) :
    ∀ c ∈ sh.childAddrs, c < a := by
  have hwf2 : heapWFAux 0 heap = true := hwf
  have := heapWFAux_get hwf2 ha
  simpa using this

theorem denoteAddr_fuel_irrel {heap : ExprHeap F} (hwf : heapWF heap = true) :
    ∀ f1 {a f2 : Nat}, a < heap.length → a < f1 → a < f2 →
      denoteAddr heap f1 a = denoteAddr heap f2 a := by
  intro f1
  induction f1 with
  | zero => intro a f2 _ h1; omega
  | succ f1 ih =>
    intro a f2 halen h1 h2
    match f2, h2 with
    | f2 + 1, _ =>
      cases hsh : heap[a]? with
      | none =>
        exact absurd (List.getElem?_eq_getElem halen) (by simp [hsh])
      | some sh =>
        have hch := heapWF_children hwf hsh
        have hrec : ∀ c ∈ sh.childAddrs, denoteAddr heap f1 c = denoteAddr heap f2 c := by
          intro c hc
          have hca := hch c hc
          exact ih (by omega) (by omega) (by omega)
        cases sh with
        | Variable v => simp [denoteAddr, hsh]
        | IsFirstRow => simp [denoteAddr, hsh]
        | IsLastRow => simp [denoteAddr, hsh]
        | IsTransition => simp [denoteAddr, hsh]
        | Constant c => simp [denoteAddr, hsh]
        | Add x y d =>
          simp only [denoteAddr, hsh]
          rw [hrec x (by simp [ExprShape.childAddrs]),
            hrec y (by simp [ExprShape.childAddrs])]
        | Sub x y d =>
          simp only [denoteAddr, hsh]
          rw [hrec x (by simp [ExprShape.childAddrs]),
            hrec y (by simp [ExprShape.childAddrs])]
        | Neg x d =>
          simp only [denoteAddr, hsh]
          rw [hrec x (by simp [ExprShape.childAddrs])]
        | Mul x y d =>
          simp only [denoteAddr, hsh]
          rw [hrec x (by simp [ExprShape.childAddrs]),
            hrec y (by simp [ExprShape.childAddrs])]

theorem denoteRoot_shape {heap : ExprHeap F} {a : Nat} {sh : ExprShape F}
    (hwf : heapWF heap = true) (hsh : heap[a]? = some sh) :
    denoteRoot heap a = denoteShapeTop heap sh := by
  have halen : a < heap.length := by
    by_contra hcon
    rw [List.getElem?_eq_none (by omega)] at hsh
    exact Option.noConfusion hsh
  have hch := heapWF_children hwf hsh
  have hrec : ∀ c ∈ sh.childAddrs, denoteAddr heap a c = denoteRoot heap c := by
    intro c hc
    have hca := hch c hc
    exact denoteAddr_fuel_irrel hwf a (by omega) (by omega) (by omega)
  rw [denoteRoot]
  cases sh with
  | Variable v => simp [denoteAddr, hsh, denoteShapeTop]
  | IsFirstRow => simp [denoteAddr, hsh, denoteShapeTop]
  | IsLastRow => simp [denoteAddr, hsh, denoteShapeTop]
  | IsTransition => simp [denoteAddr, hsh, denoteShapeTop]
  | Constant c => simp [denoteAddr, hsh, denoteShapeTop]
  | Add x y d =>
    simp only [denoteAddr, hsh, denoteShapeTop]
    rw [hrec x (by simp [ExprShape.childAddrs]), hrec y (by simp [ExprShape.childAddrs])]
  | Sub x y d =>
    simp only [denoteAddr, hsh, denoteShapeTop]
    rw [hrec x (by simp [ExprShape.childAddrs]), hrec y (by simp [ExprShape.childAddrs])]
  | Neg x d =>
    simp only [denoteAddr, hsh, denoteShapeTop]
    rw [hrec x (by simp [ExprShape.childAddrs])]
  | Mul x y d =>
    simp only [denoteAddr, hsh, denoteShapeTop]
    rw [hrec x (by simp [ExprShape.childAddrs]), hrec y (by simp [ExprShape.childAddrs])]

theorem buildInv_empty (heap : ExprHeap F) : BuildInv heap ⟨[], []⟩ := by
  constructor
  · intro i h; simp at h
  · intro p hp; simp at hp

theorem pushNode_bundle [DecidableEq F] {heap : ExprHeap F} {a : Nat} {sh : ExprShape F}
    (hwf : heapWF heap = true) (hsh : heap[a]? = some sh)
    {st : BuildState F} {node : SymbolicExpressionNode F}
    (hinv : BuildInv heap st)
    (hch : ∀ j ∈ node.children, j < st.nodes.length)
    (hden : nodeToExpr (dagExprsAux st.nodes []) node = denoteShapeTop heap sh) :
    BuildInv heap (pushNode sh (st, node)).1 ∧
    ListGrows st.nodes (pushNode sh (st, node)).1.nodes ∧
    (pushNode sh (st, node)).2 < (pushNode sh (st, node)).1.nodes.length ∧
    dagGet (pushNode sh (st, node)).1.nodes (pushNode sh (st, node)).2 =
      denoteRoot heap a := by
  have hgrows : ListGrows st.nodes (st.nodes ++ [node]) := ListGrows.append _ _
  have hget : dagGet (st.nodes ++ [node]) st.nodes.length = denoteShapeTop heap sh := by
    rw [dagGet_push, hden]
  simp only [pushNode, BuildInv]
  refine ⟨⟨?_, ?_⟩, hgrows, by simp, ?_⟩
  · intro i h j hj
    simp only [List.length_append, List.length_cons, List.length_nil] at h
    rcases Nat.lt_or_ge i st.nodes.length with hlt | hge
    · have heq : (st.nodes ++ [node]).get ⟨i, by simp; omega⟩ = st.nodes.get ⟨i, hlt⟩ := by
        simp [List.get_eq_getElem, List.getElem_append_left hlt]
      rw [heq] at hj
      exact hinv.1 i hlt j hj
    · have hi : i = st.nodes.length := by omega
      subst hi
      have heq : (st.nodes ++ [node]).get ⟨st.nodes.length, by simp⟩ = node := by
        simp [List.get_eq_getElem]
      rw [heq] at hj
      exact hch j hj
  · intro p hp
    simp only [List.mem_cons] at hp
    rcases hp with rfl | hp
    · exact ⟨by simp, hget⟩
    · obtain ⟨hb, hd⟩ := hinv.2 p hp
      exact ⟨by simp; omega, by rw [dagGet_grows hgrows hb, hd]⟩
  · simpa using hget.trans (denoteRoot_shape hwf hsh).symm

theorem topoSortExpr_bundle [DecidableEq F] {heap : ExprHeap F}
    (hwf : heapWF heap = true) :
    ∀ fuel a st, a < fuel → a < heap.length → BuildInv heap st →
      BuildInv heap (topoSortExpr heap fuel a st).1 ∧
      ListGrows st.nodes (topoSortExpr heap fuel a st).1.nodes ∧
      (topoSortExpr heap fuel a st).2 < (topoSortExpr heap fuel a st).1.nodes.length ∧
      dagGet (topoSortExpr heap fuel a st).1.nodes (topoSortExpr heap fuel a st).2 =
        denoteRoot heap a := by
  intro fuel
  induction fuel with
  | zero => intro a st ha; omega
  | succ fuel ih =>
    intro a st ha halen hinv
    cases hsh : heap[a]? with
    | none =>
      exact absurd (List.getElem?_eq_getElem halen) (by simp [hsh])
    | some sh =>
      have hch := heapWF_children hwf hsh
      cases hc : lookupCache st.expr_to_idx sh with
      | some i =>
        obtain ⟨hb, hd⟩ := hinv.2 _ (lookupCache_mem hc)
        simp only [topoSortExpr, hsh, hc]
        exact ⟨hinv, ListGrows.refl _, hb, by rw [hd, denoteRoot_shape hwf hsh]⟩
      | none =>
        simp only [topoSortExpr, hsh, hc]
        cases sh with
        | Variable v =>
          exact pushNode_bundle hwf hsh hinv
            (by simp [SymbolicExpressionNode.children])
            (by simp [nodeToExpr, denoteShapeTop])
        | IsFirstRow =>
          exact pushNode_bundle hwf hsh hinv
            (by simp [SymbolicExpressionNode.children])
            (by simp [nodeToExpr, denoteShapeTop])
        | IsLastRow =>
          exact pushNode_bundle hwf hsh hinv
            (by simp [SymbolicExpressionNode.children])
            (by simp [nodeToExpr, denoteShapeTop])
        | IsTransition =>
          exact pushNode_bundle hwf hsh hinv
            (by simp [SymbolicExpressionNode.children])
            (by simp [nodeToExpr, denoteShapeTop])
        | Constant c =>
          exact pushNode_bundle hwf hsh hinv
            (by simp [SymbolicExpressionNode.children])
            (by simp [nodeToExpr, denoteShapeTop])
        | Add x y d =>
          have hx : x < a := hch x (by simp [ExprShape.childAddrs])
          have hy : y < a := hch y (by simp [ExprShape.childAddrs])
          obtain ⟨hinv1, hg1, hb1, hd1⟩ :=
            ih x st (by omega) (by omega) hinv
          obtain ⟨hinv2, hg2, hb2, hd2⟩ :=
            ih y (topoSortExpr heap fuel x st).1 (by omega) (by omega) hinv1
          refine (pushNode_bundle hwf hsh hinv2 ?_ ?_).imp id
            (fun h => ⟨(hg1.trans hg2).trans h.1, h.2⟩)
          · intro j hj
            simp only [SymbolicExpressionNode.children, List.mem_cons,
              List.not_mem_nil, or_false] at hj
            rcases hj with rfl | rfl
            · exact Nat.lt_of_lt_of_le hb1 hg2.length_le
            · exact hb2
          · show SymbolicExpression.Add _ _ _ = _
            rw [dagGet_def, dagGet_def, dagGet_grows hg2 hb1, hd1, hd2]
            rfl
        | Sub x y d =>
          have hx : x < a := hch x (by simp [ExprShape.childAddrs])
          have hy : y < a := hch y (by simp [ExprShape.childAddrs])
          obtain ⟨hinv1, hg1, hb1, hd1⟩ :=
            ih x st (by omega) (by omega) hinv
          obtain ⟨hinv2, hg2, hb2, hd2⟩ :=
            ih y (topoSortExpr heap fuel x st).1 (by omega) (by omega) hinv1
          refine (pushNode_bundle hwf hsh hinv2 ?_ ?_).imp id
            (fun h => ⟨(hg1.trans hg2).trans h.1, h.2⟩)
          · intro j hj
            simp only [SymbolicExpressionNode.children, List.mem_cons,
              List.not_mem_nil, or_false] at hj
            rcases hj with rfl | rfl
            · exact Nat.lt_of_lt_of_le hb1 hg2.length_le
            · exact hb2
          · show SymbolicExpression.Sub _ _ _ = _
            rw [dagGet_def, dagGet_def, dagGet_grows hg2 hb1, hd1, hd2]
            rfl
        | Neg x d =>
          have hx : x < a := hch x (by simp [ExprShape.childAddrs])
          obtain ⟨hinv1, hg1, hb1, hd1⟩ :=
            ih x st (by omega) (by omega) hinv
          refine (pushNode_bundle hwf hsh hinv1 ?_ ?_).imp id
            (fun h => ⟨hg1.trans h.1, h.2⟩)
          · intro j hj
            simp only [SymbolicExpressionNode.children, List.mem_cons,
              List.not_mem_nil, or_false] at hj
            rcases hj with rfl
            exact hb1
          · show SymbolicExpression.Neg _ _ = _
            rw [dagGet_def, hd1]
            rfl
        | Mul x y d =>
          have hx : x < a := hch x (by simp [ExprShape.childAddrs])
          have hy : y < a := hch y (by simp [ExprShape.childAddrs])
          obtain ⟨hinv1, hg1, hb1, hd1⟩ :=
            ih x st (by omega) (by omega) hinv
          obtain ⟨hinv2, hg2, hb2, hd2⟩ :=
            ih y (topoSortExpr heap fuel x st).1 (by omega) (by omega) hinv1
          refine (pushNode_bundle hwf hsh hinv2 ?_ ?_).imp id
            (fun h => ⟨(hg1.trans hg2).trans h.1, h.2⟩)
          · intro j hj
            simp only [SymbolicExpressionNode.children, List.mem_cons,
              List.not_mem_nil, or_false] at hj
            rcases hj with rfl | rfl
            · exact Nat.lt_of_lt_of_le hb1 hg2.length_le
            · exact hb2
          · show SymbolicExpression.Mul _ _ _ = _
            rw [dagGet_def, dagGet_def, dagGet_grows hg2 hb1, hd1, hd2]
            rfl

theorem forall₂_mem_right {A B : Type} {R : A → B → Prop} :
    ∀ {l1 : List A} {l2 : List B}, List.Forall₂ R l1 l2 →
      ∀ b ∈ l2, ∃ a ∈ l1, R a b := by
  intro l1 l2 h
  induction h with
  | nil => intro b hb; simp at hb
  | cons hr _ ih =>
    intro b hb
    rcases List.mem_cons.mp hb with rfl | hb2
    · exact ⟨_, by simp, hr⟩
    · obtain ⟨a, ha, hab⟩ := ih b hb2
      exact ⟨a, by simp [ha], hab⟩

theorem buildAux_bundle [DecidableEq F] {heap : ExprHeap F} (hwf : heapWF heap = true) :
    ∀ (roots : List Nat) (st : BuildState F), (∀ r ∈ roots, r < heap.length) →
      BuildInv heap st →
      BuildInv heap (buildAux heap roots st).1 ∧
      ListGrows st.nodes (buildAux heap roots st).1.nodes ∧
      List.Forall₂ (fun r i => i < (buildAux heap roots st).1.nodes.length ∧
        dagGet (buildAux heap roots st).1.nodes i = denoteRoot heap r)
        roots (buildAux heap roots st).2 := by
  intro roots
  induction roots with
  | nil =>
    intro st _ hinv
    exact ⟨hinv, ListGrows.refl _, by simp [buildAux]⟩
  | cons r rs ih =>
    intro st hroots hinv
    have hr : r < heap.length := hroots r (by simp)
    obtain ⟨hinv1, hg1, hb1, hd1⟩ :=
      topoSortExpr_bundle hwf heap.length r st hr hr hinv
    obtain ⟨hinv2, hg2, hfa⟩ :=
      ih (topoSortExpr heap heap.length r st).1 (fun x hx => hroots x (by simp [hx])) hinv1
    refine ⟨hinv2, hg1.trans hg2, ?_⟩
    rw [show (buildAux heap (r :: rs) st).2 =
      (topoSortExpr heap heap.length r st).2 ::
        (buildAux heap rs (topoSortExpr heap heap.length r st).1).2 from rfl]
    rw [show (buildAux heap (r :: rs) st).1 =
      (buildAux heap rs (topoSortExpr heap heap.length r st).1).1 from rfl]
    exact List.Forall₂.cons
      ⟨Nat.lt_of_lt_of_le hb1 hg2.length_le, by rw [dagGet_grows hg2 hb1, hd1]⟩ hfa

theorem build_bundle [DecidableEq F] {heap : ExprHeap F} {roots : List Nat}
    (hwf : heapWF heap = true) (hroots : ∀ r ∈ roots, r < heap.length) :
    BuildInv heap ⟨[], (build_symbolic_expr_dag heap roots).nodes⟩ ∧
    List.Forall₂ (fun r i => i < (build_symbolic_expr_dag heap roots).nodes.length ∧
      dagGet (build_symbolic_expr_dag heap roots).nodes i = denoteRoot heap r)
      roots (build_symbolic_expr_dag heap roots).constraint_idx := by
  obtain ⟨hinv, _, hfa⟩ := buildAux_bundle hwf roots ⟨[], []⟩ hroots (buildInv_empty heap)
  refine ⟨⟨hinv.1, ?_⟩, hfa⟩
  intro p hp
  simp at hp

/-! ## Claim theorems -/

/-- C3: on a well-formed expression heap (the faithful image of an `Arc`
expression graph), `build_symbolic_expr_dag` produces a DAG in which every
internal node's child indices are strictly smaller than its own index, and
every `constraint_idx` entry is a valid node index. -/
theorem build_dag_topological (F : Type) [DecidableEq F]
    (heap : ExprHeap F) (roots : List Nat)
    (hwf : heapWF heap = true) (hroots : ∀ r ∈ roots, r < heap.length) :
    (∀ i (h : i < (build_symbolic_expr_dag heap roots).nodes.length),
      ∀ j ∈ ((build_symbolic_expr_dag heap roots).nodes.get ⟨i, h⟩).children, j < i) ∧
    (∀ c ∈ (build_symbolic_expr_dag heap roots).constraint_idx,
      c < (build_symbolic_expr_dag heap roots).nodes.length) := by
  obtain ⟨hinv, hfa⟩ := build_bundle hwf hroots
  refine ⟨hinv.1, ?_⟩
  intro c hc
  obtain ⟨r, _, hri⟩ := forall₂_mem_right hfa c hc
  exact hri.1

/-- C3 witness. -/
theorem build_dag_topological_witness :
    (∀ i (h : i < (build_symbolic_expr_dag (F := ZMod 101)
        [ExprShape.IsFirstRow, ExprShape.IsLastRow, ExprShape.Mul 0 1 2,
         ExprShape.Add 2 2 2] [3]).nodes.length),
      ∀ j ∈ ((build_symbolic_expr_dag (F := ZMod 101)
        [ExprShape.IsFirstRow, ExprShape.IsLastRow, ExprShape.Mul 0 1 2,
         ExprShape.Add 2 2 2] [3]).nodes.get ⟨i, h⟩).children, j < i) ∧
    (∀ c ∈ (build_symbolic_expr_dag (F := ZMod 101)
        [ExprShape.IsFirstRow, ExprShape.IsLastRow, ExprShape.Mul 0 1 2,
         ExprShape.Add 2 2 2] [3]).constraint_idx,
      c < (build_symbolic_expr_dag (F := ZMod 101)
        [ExprShape.IsFirstRow, ExprShape.IsLastRow, ExprShape.Mul 0 1 2,
         ExprShape.Add 2 2 2] [3]).nodes.length) :=
  build_dag_topological (ZMod 101)
    [ExprShape.IsFirstRow, ExprShape.IsLastRow, ExprShape.Mul 0 1 2, ExprShape.Add 2 2 2]
    [3] (by decide) (by decide)

theorem forall₂_map_eq {A B C : Type} {R : A → B → Prop} (f : B → C) (g : A → C)
    (hR : ∀ a b, R a b → f b = g a) :
    ∀ {l1 : List A} {l2 : List B}, List.Forall₂ R l1 l2 → l2.map f = l1.map g := by
  intro l1 l2 h
  induction h with
  | nil => simp
  | cons hr _ ih => simp [ih, hR _ _ hr]

theorem decodeNode_encode {encF : F → Nat} {decF : Nat → Option F}
    (hfd : ∀ c, decF (encF c) = some c) (n : SymbolicExpressionNode F) (rest : List Nat) :
    decodeNode decF (encodeNode encF n ++ rest) = some (n, rest) := by
  cases n with
  | Variable v =>
    obtain ⟨e, idx⟩ := v
    cases e <;> rfl
  | Constant c =>
    show ((decF (encF c)).bind fun cv => some (SymbolicExpressionNode.Constant cv, rest)) =
      some (SymbolicExpressionNode.Constant c, rest)
    rw [hfd c]
    rfl
  | _ => rfl

theorem decodeNodes_encode {encF : F → Nat} {decF : Nat → Option F}
    (hfd : ∀ c, decF (encF c) = some c) :
    ∀ (ns : List (SymbolicExpressionNode F)) (rest : List Nat),
      decodeNodes decF ns.length ((ns.map (encodeNode encF)).flatten ++ rest) =
        some (ns, rest) := by
  intro ns
  induction ns with
  | nil => intro rest; rfl
  | cons n ns ih =>
    intro rest
    simp only [List.map_cons, List.flatten_cons, List.length_cons, List.append_assoc]
    simp [decodeNodes, decodeNode_encode hfd, ih]

theorem decodeNats_take : ∀ (l rest : List Nat),
    decodeNats l.length (l ++ rest) = some (l, rest) := by
  intro l
  induction l with
  | nil => intro rest; rfl
  | cons x xs ih =>
    intro rest
    simp only [List.cons_append, List.length_cons]
    rw [decodeNats, ih]
    rfl

theorem decodeDag_encode {encF : F → Nat} {decF : Nat → Option F}
    (hfd : ∀ c, decF (encF c) = some c) (dag : SymbolicExpressionDag F) :
    decodeDag decF (encodeDag encF dag) = some dag := by
  rw [encodeDag, decodeDag]
  rw [decodeNodes_encode hfd dag.nodes (dag.constraint_idx.length :: dag.constraint_idx)]
  show (do
    let (cidx, _) ← decodeNats dag.constraint_idx.length dag.constraint_idx
    some (⟨dag.nodes, cidx⟩ : SymbolicExpressionDag F)) = some dag
  rw [show dag.constraint_idx =
    dag.constraint_idx ++ ([] : List Nat) from (List.append_nil _).symm,
    show (dag.constraint_idx ++ ([] : List Nat)).length = dag.constraint_idx.length by simp]
  rw [decodeNats_take]
  simp

/-- C4: round-trip.  Part 1: building the DAG from a list of expression roots
(cells of a well-formed shared-expression heap) and rehydrating it with
`to_symbolic_expressions` returns exactly the value trees of the roots
(value-equality; sharing is not compared).  Part 2: decoding the canonical
token encoding of any DAG reproduces the DAG node-for-node and
index-for-index. -/
theorem dag_roundtrip (F : Type) [DecidableEq F] :
    (∀ (heap : ExprHeap F) (roots : List Nat), heapWF heap = true →
      (∀ r ∈ roots, r < heap.length) →
      (build_symbolic_expr_dag heap roots).to_symbolic_expressions =
        roots.map (denoteRoot heap)) ∧
    (∀ (encF : F → Nat) (decF : Nat → Option F), (∀ c, decF (encF c) = some c) →
      ∀ dag : SymbolicExpressionDag F, decodeDag decF (encodeDag encF dag) = some dag) := by
  constructor
  · intro heap roots hwf hroots
    obtain ⟨_, hfa⟩ := build_bundle hwf hroots
    rw [SymbolicExpressionDag.to_symbolic_expressions]
    exact forall₂_map_eq _ _ (fun r i hri => hri.2) hfa
  · intro encF decF hfd dag
    exact decodeDag_encode hfd dag

/-- C4 witness. -/
theorem dag_roundtrip_witness :
    ((build_symbolic_expr_dag (F := ZMod 101)
        [ExprShape.Variable ⟨Entry.Main 0 0, 3⟩, ExprShape.Mul 0 0 2]
        [1]).to_symbolic_expressions =
      [1].map (denoteRoot [ExprShape.Variable ⟨Entry.Main 0 0, 3⟩, ExprShape.Mul 0 0 2])) ∧
    decodeDag (fun n => if n < 101 then some ((n : ZMod 101)) else none)
        (encodeDag ZMod.val
          (⟨[SymbolicExpressionNode.Constant (7 : ZMod 101),
             SymbolicExpressionNode.Neg 0 0], [1]⟩ : SymbolicExpressionDag (ZMod 101))) =
      some ⟨[SymbolicExpressionNode.Constant (7 : ZMod 101),
             SymbolicExpressionNode.Neg 0 0], [1]⟩ :=
  ⟨(dag_roundtrip (ZMod 101)).1
      [ExprShape.Variable ⟨Entry.Main 0 0, 3⟩, ExprShape.Mul 0 0 2] [1]
      (by decide) (by decide),
   (dag_roundtrip (ZMod 101)).2 ZMod.val
      (fun n => if n < 101 then some ((n : ZMod 101)) else none)
      (by decide)
      ⟨[SymbolicExpressionNode.Constant (7 : ZMod 101),
        SymbolicExpressionNode.Neg 0 0], [1]⟩⟩

theorem topoSortExpr_hit [DecidableEq F] {heap : ExprHeap F} {a i fuel : Nat}
    {sh : ExprShape F} {st : BuildState F} (hsh : heap[a]? = some sh)
    (hc : lookupCache st.expr_to_idx sh = some i) :
    topoSortExpr heap (fuel + 1) a st = (st, i) := by
  simp [topoSortExpr, hsh, hc]

theorem topoSortExpr_cache_self [DecidableEq F] {heap : ExprHeap F} {a fuel : Nat}
    {sh : ExprShape F} (st : BuildState F) (hsh : heap[a]? = some sh) :
    lookupCache ((topoSortExpr heap (fuel + 1) a st).1).expr_to_idx sh =
      some ((topoSortExpr heap (fuel + 1) a st).2) := by
  cases hc : lookupCache st.expr_to_idx sh with
  | some i => rw [topoSortExpr_hit hsh hc]; exact hc
  | none =>
    simp only [topoSortExpr, hsh, hc]
    cases sh <;> simp [pushNode, lookupCache]

/-- C5: dedup. General part: a cell revisited through the same shared reference
(the same heap address) during one build is assigned its previously cached
node index and the build state is left unchanged — no new nodes. Concrete
part: building from the single root `Mul{x, x}` whose two arguments are the
same shared reference produces exactly two nodes, one `Variable` and one `Mul`
whose two child indices both equal the `Variable` node's index. -/
theorem dag_dedup (F : Type) [DecidableEq F] :
    (∀ (heap : ExprHeap F) (fuel f2 a : Nat) (st : BuildState F) (sh : ExprShape F),
      heap[a]? = some sh →
      topoSortExpr heap (f2 + 1) a (topoSortExpr heap (fuel + 1) a st).1 =
        ((topoSortExpr heap (fuel + 1) a st).1, (topoSortExpr heap (fuel + 1) a st).2)) ∧
    build_symbolic_expr_dag (F := ZMod 101)
        [ExprShape.Variable ⟨Entry.Main 0 0, 3⟩, ExprShape.Mul 0 0 2] [1] =
      ⟨[SymbolicExpressionNode.Variable ⟨Entry.Main 0 0, 3⟩,
        SymbolicExpressionNode.Mul 0 0 2], [1]⟩ := by
  constructor
  · intro heap fuel f2 a st sh hsh
    exact topoSortExpr_hit hsh (topoSortExpr_cache_self st hsh)
  · decide

/-- C5 witness. -/
theorem dag_dedup_witness :
    topoSortExpr (F := ZMod 101)
        [ExprShape.Variable ⟨Entry.Main 0 0, 3⟩, ExprShape.Mul 0 0 2] 1 0
        (topoSortExpr [ExprShape.Variable ⟨Entry.Main 0 0, 3⟩, ExprShape.Mul 0 0 2]
          1 0 ⟨[], []⟩).1 =
      ((topoSortExpr (F := ZMod 101)
          [ExprShape.Variable ⟨Entry.Main 0 0, 3⟩, ExprShape.Mul 0 0 2] 1 0 ⟨[], []⟩).1,
       (topoSortExpr (F := ZMod 101)
          [ExprShape.Variable ⟨Entry.Main 0 0, 3⟩, ExprShape.Mul 0 0 2] 1 0 ⟨[], []⟩).2) :=
  (dag_dedup (ZMod 101)).1
    [ExprShape.Variable ⟨Entry.Main 0 0, 3⟩, ExprShape.Mul 0 0 2] 0 0 0 ⟨[], []⟩
    (ExprShape.Variable ⟨Entry.Main 0 0, 3⟩) (by decide)

/-- C7: the `PackedExpr` operations agree with extension-field arithmetic under
the lift `unpack φ` that embeds `Val x` as `φ x`; the variant tags obey
`Val ∘ Val → Val`, any operation with a `Challenge` operand yields `Challenge`,
and `Val - Challenge` lifts the left operand into the extension field before
subtracting. -/
theorem packedExpr_arith (F E : Type) [CommRing F] [CommRing E] (φ : F →+* E) :
    (∀ a b : PackedExpr F E,
      (PackedExpr.add φ a b).unpack φ = a.unpack φ + b.unpack φ) ∧
    (∀ a b : PackedExpr F E,
      (PackedExpr.sub φ a b).unpack φ = a.unpack φ - b.unpack φ) ∧
    (∀ a b : PackedExpr F E,
      (PackedExpr.mul φ a b).unpack φ = a.unpack φ * b.unpack φ) ∧
    (∀ a : PackedExpr F E, (PackedExpr.neg a).unpack φ = -(a.unpack φ)) ∧
    (∀ x y : F, PackedExpr.add φ (.Val x) (.Val y) = (.Val (x + y) : PackedExpr F E)) ∧
    (∀ x y : F, PackedExpr.sub φ (.Val x) (.Val y) = (.Val (x - y) : PackedExpr F E)) ∧
    (∀ x y : F, PackedExpr.mul φ (.Val x) (.Val y) = (.Val (x * y) : PackedExpr F E)) ∧
    (∀ x : F, PackedExpr.neg (.Val x) = (.Val (-x) : PackedExpr F E)) ∧
    (∀ (x : E) (b : PackedExpr F E),
      (PackedExpr.add φ (.Challenge x) b).isChallenge = true ∧
      (PackedExpr.add φ b (.Challenge x)).isChallenge = true ∧
      (PackedExpr.sub φ (.Challenge x) b).isChallenge = true ∧
      (PackedExpr.sub φ b (.Challenge x)).isChallenge = true ∧
      (PackedExpr.mul φ (.Challenge x) b).isChallenge = true ∧
      (PackedExpr.mul φ b (.Challenge x)).isChallenge = true ∧
      (PackedExpr.neg (.Challenge x : PackedExpr F E)).isChallenge = true) ∧
    (∀ (x : F) (y : E),
      PackedExpr.sub φ (.Val x) (.Challenge y) = .Challenge (φ x - y)) := by
  refine ⟨?_, ?_, ?_, ?_, fun _ _ => rfl, fun _ _ => rfl, fun _ _ => rfl, fun _ => rfl,
    ?_, fun _ _ => rfl⟩
  · intro a b
    cases a with
    | Val x =>
      cases b with
      | Val y => exact map_add φ x y
      | Challenge y => exact add_comm y (φ x)
    | Challenge x => cases b <;> rfl
  · intro a b
    cases a with
    | Val x =>
      cases b with
      | Val y => exact map_sub φ x y
      | Challenge y => rfl
    | Challenge x => cases b <;> rfl
  · intro a b
    cases a with
    | Val x =>
      cases b with
      | Val y => exact map_mul φ x y
      | Challenge y => exact mul_comm y (φ x)
    | Challenge x => cases b <;> rfl
  · intro a
    cases a with
    | Val x => exact (map_neg φ x).symm ▸ rfl
    | Challenge x => rfl
  · intro x b
    cases b <;>
      simp [PackedExpr.add, PackedExpr.sub, PackedExpr.mul, PackedExpr.neg,
        PackedExpr.isChallenge]

/-- C10: row-index wrap-around in the quotient evaluators. In the cpu
evaluator, `quot_row_idx` is reduced modulo the quotient-domain size (so is
always in range), and the next-row index of a lane is the local index advanced
by `quotient_degree`, modulo the size; in the flat evaluator the same holds
with `wrap` and `next_step`. In particular, at the last quotient-domain row
the next row wraps to row `quotient_degree - 1` at the start of the domain
instead of reading out of range. -/
theorem quotient_row_wraps (chunk_idx qd qs row_idx offset i : Nat) (hqs : 0 < qs) :
    quotRowIdxCpu chunk_idx qd qs row_idx offset < qs ∧
    quotRowIdxCpu chunk_idx qd qs row_idx (offset + 1) =
      (quotRowIdxCpu chunk_idx qd qs row_idx offset + qd) % qs ∧
    wrapIdx qs i < qs ∧
    wrapIdx qs (i + qd) = (wrapIdx qs i + qd) % qs ∧
    (0 < qd → qd ≤ qs → wrapIdx qs (qs - 1 + qd) = qd - 1 ∧ qd - 1 < qs) := by
  refine ⟨Nat.mod_lt _ hqs, ?_, Nat.mod_lt _ hqs, ?_, ?_⟩
  · rw [quotRowIdxCpu, quotRowIdxCpu, Nat.mod_add_mod]
    congr 1
    ring
  · rw [wrapIdx, wrapIdx, Nat.mod_add_mod]
  · intro hqd hle
    have h1 : qs - 1 + qd = qs + (qd - 1) := by omega
    constructor
    · rw [wrapIdx, h1, Nat.add_mod_left, Nat.mod_eq_of_lt (by omega)]
    · omega

/-- C10 witness. -/
theorem quotient_row_wraps_witness :
    quotRowIdxCpu 1 4 32 7 0 < 32 ∧
    quotRowIdxCpu 1 4 32 7 (0 + 1) = (quotRowIdxCpu 1 4 32 7 0 + 4) % 32 ∧
    wrapIdx 32 31 < 32 ∧
    wrapIdx 32 (31 + 4) = (wrapIdx 32 31 + 4) % 32 ∧
    (0 < 4 → 4 ≤ 32 → wrapIdx 32 (32 - 1 + 4) = 4 - 1 ∧ 4 - 1 < 32) :=
  quotient_row_wraps 1 4 32 7 0 31 (by decide)

theorem foldl_add_map_sum {A E : Type} [AddCommMonoid E] (t : A → E) :
    ∀ (l : List A) (a0 : E), l.foldl (fun acc x => acc + t x) a0 = a0 + (l.map t).sum := by
  intro l
  induction l with
  | nil => intro a0; simp
  | cons a l ih => intro a0; simp [ih, add_assoc]

theorem map_sum_eq_range_sum {A E : Type} [AddCommMonoid E] (t : A → E) (dflt : A) :
    ∀ l : List A, (l.map t).sum = ∑ k ∈ Finset.range l.length, t (l.getD k dflt) := by
  intro l
  induction l with
  | nil => simp
  | cons a l ih =>
    rw [List.map_cons, List.sum_cons, ih, List.length_cons, Finset.sum_range_succ']
    simp [List.getD_cons_succ, add_comm]

theorem accStep_unpack [CommRing F] [CommRing E] (φ : F →+* E)
    (evals : List (PackedExpr F E)) (acc : E) (p : E × Nat) :
    accStep φ evals acc p = acc + p.1 * (evals.getD p.2 (.Val 0)).unpack φ := by
  cases h : evals.getD p.2 (.Val 0) <;>
    (unfold accStep; rw [h]) <;> simp [PackedExpr.unpack]

theorem zip_getD {A B : Type} (l1 : List A) (l2 : List B) (d1 : A) (d2 : B) (k : Nat)
    (h1 : k < l1.length) (h2 : k < l2.length) :
    (l1.zip l2).getD k (d1, d2) = (l1.getD k d1, l2.getD k d2) := by
  rw [List.getD_eq_getElem?_getD, List.getD_eq_getElem?_getD, List.getD_eq_getElem?_getD]
  rw [List.getElem?_eq_getElem (by simp [List.length_zip]; omega),
    List.getElem?_eq_getElem h1, List.getElem?_eq_getElem h2]
  simp [List.getElem_zip]

theorem reverse_pow_getD [CommRing E] (α : E) (C k : Nat) (hk : k < C) :
    (((List.range C).map (fun j => α ^ j)).reverse).getD k 0 = α ^ (C - 1 - k) := by
  rw [List.getD_eq_getElem?_getD,
    List.getElem?_eq_getElem (by simpa using hk)]
  rw [List.getElem_reverse]
  simp [List.getElem_map, List.getElem_range]

theorem foldl_accStep_sum [CommRing F] [CommRing E] (φ : F →+* E)
    (evals : List (PackedExpr F E)) (l : List (E × Nat)) :
    l.foldl (accStep φ evals) 0 =
      ∑ k ∈ Finset.range l.length,
        (l.getD k (0, 0)).1 * (evals.getD (l.getD k (0, 0)).2 (.Val 0)).unpack φ := by
  have hfun : accStep φ evals = fun acc p =>
      acc + p.1 * (evals.getD p.2 (.Val 0)).unpack φ :=
    funext fun acc => funext fun p => accStep_unpack φ evals acc p
  rw [hfun, foldl_add_map_sum, map_sum_eq_range_sum _ (0, 0), zero_add]

/-- The flat accumulator (`prover/quotient/evaluator.rs`), applied to
highest-first alpha powers, equals the alpha-folded sum of the constraint
evaluations. -/
theorem accumulate_eq_sum [CommRing F] [CommRing E] (φ : F →+* E)
    (r : ProverConstraintEvaluator F E) (dag : SymbolicExpressionDag F) (α : E) :
    accumulate φ r dag
        (((List.range dag.constraint_idx.length).map (fun j => α ^ j)).reverse) =
      ∑ k ∈ Finset.range dag.constraint_idx.length,
        α ^ (dag.constraint_idx.length - 1 - k) *
          ((evalNodes φ r dag.nodes).getD (dag.constraint_idx.getD k 0)
            (.Val 0)).unpack φ := by
  rw [accumulate, foldl_accStep_sum]
  have hlen : ((((List.range dag.constraint_idx.length).map (fun j => α ^ j)).reverse).zip
      dag.constraint_idx).length = dag.constraint_idx.length := by
    simp [List.length_zip]
  rw [hlen]
  refine Finset.sum_congr rfl ?_
  intro k hk
  have hk2 := Finset.mem_range.mp hk
  rw [zip_getD _ _ 0 0 k (by simpa using hk2) hk2, reverse_pow_getD α _ k hk2]

/-- The cpu accumulator (`prover/cpu/quotient/evaluator.rs`), applied to
increasing alpha powers of any length at least the constraint count, equals
the same alpha-folded sum. -/
theorem accumulateCpu_eq_sum [CommRing F] [CommRing E] (φ : F →+* E)
    (r : ProverConstraintEvaluator F E) (dag : SymbolicExpressionDag F) (α : E)
    (L : Nat) (hL : dag.constraint_idx.length ≤ L) :
    accumulateCpu φ r dag ((List.range L).map (fun j => α ^ j)) =
      ∑ k ∈ Finset.range dag.constraint_idx.length,
        α ^ (dag.constraint_idx.length - 1 - k) *
          ((evalNodes φ r dag.nodes).getD (dag.constraint_idx.getD k 0)
            (.Val 0)).unpack φ := by
  rw [accumulateCpu, foldl_accStep_sum]
  have hlen : (((List.range L).map (fun j => α ^ j)).zip
      dag.constraint_idx.reverse).length = dag.constraint_idx.length := by
    simp [List.length_zip]; omega
  rw [hlen]
  rw [show ∑ k ∈ Finset.range dag.constraint_idx.length,
      α ^ (dag.constraint_idx.length - 1 - k) *
        ((evalNodes φ r dag.nodes).getD (dag.constraint_idx.getD k 0) (.Val 0)).unpack φ =
    ∑ k ∈ Finset.range dag.constraint_idx.length,
      α ^ (dag.constraint_idx.length - 1 - (dag.constraint_idx.length - 1 - k)) *
        ((evalNodes φ r dag.nodes).getD
          (dag.constraint_idx.getD (dag.constraint_idx.length - 1 - k) 0)
          (.Val 0)).unpack φ from (Finset.sum_range_reflect _ _).symm]
  refine Finset.sum_congr rfl ?_
  intro k hk
  have hk2 := Finset.mem_range.mp hk
  rw [zip_getD _ _ 0 0 k (by simpa using Nat.lt_of_lt_of_le hk2 hL)
    (by simpa using hk2)]
  have hpow : ((List.range L).map (fun j => α ^ j)).getD k 0 = α ^ k := by
    rw [List.getD_eq_getElem?_getD,
      List.getElem?_eq_getElem (by simpa using Nat.lt_of_lt_of_le hk2 hL)]
    simp [List.getElem_map, List.getElem_range]
  have hrev : dag.constraint_idx.reverse.getD k 0 =
      dag.constraint_idx.getD (dag.constraint_idx.length - 1 - k) 0 := by
    rw [List.getD_eq_getElem?_getD, List.getD_eq_getElem?_getD,
      List.getElem?_eq_getElem (by simpa using hk2),
      List.getElem?_eq_getElem (by omega)]
    simp [List.getElem_reverse]
  rw [hpow, hrev]
  have : dag.constraint_idx.length - 1 - (dag.constraint_idx.length - 1 - k) = k := by
    omega
  rw [this]

/-- C2 (amended): each accumulator returns the alpha-folded sum
`Σ_k α^(C-1-k) · eval(constraint_idx[k])` when its alpha-powers argument is
supplied in the order its own documentation states: highest power first for
the flat evaluator (`prover/quotient/evaluator.rs`), increasing order
(`α^0, α^1, ...`, paired with reversed constraint indices) for the cpu
evaluator (`prover/cpu/quotient/evaluator.rs`, any length at least the
constraint count). -/
theorem accumulate_alpha_folding (F E : Type) [CommRing F] [CommRing E] (φ : F →+* E) :
    (∀ (r : ProverConstraintEvaluator F E) (dag : SymbolicExpressionDag F) (α : E),
      accumulate φ r dag
          (((List.range dag.constraint_idx.length).map (fun j => α ^ j)).reverse) =
        ∑ k ∈ Finset.range dag.constraint_idx.length,
          α ^ (dag.constraint_idx.length - 1 - k) *
            ((evalNodes φ r dag.nodes).getD (dag.constraint_idx.getD k 0)
              (.Val 0)).unpack φ) ∧
    (∀ (r : ProverConstraintEvaluator F E) (dag : SymbolicExpressionDag F) (α : E)
      (L : Nat), dag.constraint_idx.length ≤ L →
      accumulateCpu φ r dag ((List.range L).map (fun j => α ^ j)) =
        ∑ k ∈ Finset.range dag.constraint_idx.length,
          α ^ (dag.constraint_idx.length - 1 - k) *
            ((evalNodes φ r dag.nodes).getD (dag.constraint_idx.getD k 0)
              (.Val 0)).unpack φ) :=
  ⟨fun r dag α => accumulate_eq_sum φ r dag α,
   fun r dag α L hL => accumulateCpu_eq_sum φ r dag α L hL⟩

/-- C2 counterexample: the cpu accumulator, supplied the alpha powers
highest-first as the claim states, does not return
`Σ_k α^(C-1-k) · eval(constraint_idx[k])`: on the 2-constraint DAG
`[Constant 0, Constant 1]` with `α = 2` it returns `α^0·0 + α^1·1 = 2`,
not `α^1·0 + α^0·1 = 1`. -/
theorem accumulate_alpha_folding_cex :
    ¬ (accumulateCpu (RingHom.id (ZMod 101))
        ⟨⟨[], none⟩, [], [], [], 0, 0, 0, [], []⟩
        ⟨[SymbolicExpressionNode.Constant 0, SymbolicExpressionNode.Constant 1], [0, 1]⟩
        (((List.range 2).map (fun j => (2 : ZMod 101) ^ j)).reverse) =
      ∑ k ∈ Finset.range 2, (2 : ZMod 101) ^ (2 - 1 - k) *
        ((evalNodes (RingHom.id (ZMod 101))
            ⟨⟨[], none⟩, [], [], [], 0, 0, 0, [], []⟩
            [SymbolicExpressionNode.Constant 0, SymbolicExpressionNode.Constant 1]).getD
          ([0, 1].getD k 0) (.Val 0)).unpack (RingHom.id (ZMod 101))) := by
  decide

/-- C2 witness. -/
theorem accumulate_alpha_folding_witness :
    accumulateCpu (RingHom.id (ZMod 101))
        ⟨⟨[], none⟩, [], [], [], 0, 0, 0, [], []⟩
        ⟨[SymbolicExpressionNode.Constant 0, SymbolicExpressionNode.Constant 1], [0, 1]⟩
        ((List.range 3).map (fun j => (2 : ZMod 101) ^ j)) =
      ∑ k ∈ Finset.range 2, (2 : ZMod 101) ^ (2 - 1 - k) *
        ((evalNodes (RingHom.id (ZMod 101))
            ⟨⟨[], none⟩, [], [], [], 0, 0, 0, [], []⟩
            [SymbolicExpressionNode.Constant 0, SymbolicExpressionNode.Constant 1]).getD
          ([0, 1].getD k 0) (.Val 0)).unpack (RingHom.id (ZMod 101)) :=
  (accumulate_alpha_folding (ZMod 101) (ZMod 101) (RingHom.id (ZMod 101))).2
    ⟨⟨[], none⟩, [], [], [], 0, 0, 0, [], []⟩
    ⟨[SymbolicExpressionNode.Constant 0, SymbolicExpressionNode.Constant 1], [0, 1]⟩
    2 3 (by decide)

/-- C1: whenever the pre-evaluation scan succeeds, the quotient value emitted
by `compute_single_rap_quotient_values` at quotient-domain row `i` equals
`acc(i) · inv_Z_H(i)`, where `acc(i) = Σ_k α^(C-1-k) · constraint_k(i)` is the
alpha-folded evaluation of the DAG's `C` constraints at the row and
`inv_Z_H(i)` is the precomputed inverse-vanishing selector at the row. -/
theorem quotient_values_formula (F E : Type) [CommRing F] [CommRing E] (φ : F →+* E)
    (dag : SymbolicExpressionDag F) (inp : QuotientInput F E) (sels : Selectors F)
    (qs th : Nat) (α : E) (rot : Nat)
    (hscan : scanNodesSimple inp dag.nodes 0 = .ok rot) (i : Nat) (hi : i < qs) :
    ∃ vs, computeSingleRapQuotientValues φ dag inp sels qs th α = .ok vs ∧
      vs[i]? = some
        ((∑ k ∈ Finset.range dag.constraint_idx.length,
            α ^ (dag.constraint_idx.length - 1 - k) *
              ((evalNodes φ
                  (mkRowEvaluator inp sels qs (qs / th) (decide (0 < rot)) i)
                  dag.nodes).getD
                (dag.constraint_idx.getD k 0) (.Val 0)).unpack φ) *
          φ (sels.inv_zeroifier.getD i 0)) := by
  have hcompute : computeSingleRapQuotientValues φ dag inp sels qs th α =
      .ok ((List.range qs).map (fun j =>
        accumulate φ (mkRowEvaluator inp sels qs (qs / th) (decide (0 < rot)) j) dag
            (((List.range dag.constraint_idx.length).map (fun k => α ^ k)).reverse) *
          φ (sels.inv_zeroifier.getD j 0))) := by
    simp only [computeSingleRapQuotientValues, hscan]
  refine ⟨_, hcompute, ?_⟩
  rw [List.getElem?_map, List.getElem?_range hi]
  simp only [Option.map_some']
  rw [accumulate_eq_sum]

/-- C1 witness. -/
theorem quotient_values_formula_witness :
    ∃ vs, computeSingleRapQuotientValues (RingHom.id (ZMod 101))
        ⟨[SymbolicExpressionNode.Constant 5], [0]⟩
        ⟨none, [], [], [], [], []⟩ ⟨[1, 0], [0, 1], [1, 0], [3, 4]⟩ 2 1 7 = .ok vs ∧
      vs[0]? = some
        ((∑ k ∈ Finset.range ([0] : List Nat).length,
            (7 : ZMod 101) ^ (([0] : List Nat).length - 1 - k) *
              ((evalNodes (RingHom.id (ZMod 101))
                  (mkRowEvaluator ⟨none, [], [], [], [], []⟩
                    ⟨[1, 0], [0, 1], [1, 0], [3, 4]⟩ 2 (2 / 1) (decide (0 < 0)) 0)
                  [SymbolicExpressionNode.Constant 5]).getD
                (([0] : List Nat).getD k 0) (.Val 0)).unpack (RingHom.id (ZMod 101))) *
          RingHom.id (ZMod 101) (([3, 4] : List (ZMod 101)).getD 0 0)) :=
  quotient_values_formula (ZMod 101) (ZMod 101) (RingHom.id (ZMod 101))
    ⟨[SymbolicExpressionNode.Constant 5], [0]⟩
    ⟨none, [], [], [], [], []⟩ ⟨[1, 0], [0, 1], [1, 0], [3, 4]⟩ 2 1 7 0
    rfl 0 (by decide)

theorem unpack_add [CommRing F] [CommRing E] (φ : F →+* E) (a b : PackedExpr F E) :
    (PackedExpr.add φ a b).unpack φ = a.unpack φ + b.unpack φ := by
  cases a with
  | Val x =>
    cases b with
    | Val y => exact map_add φ x y
    | Challenge y => exact add_comm y (φ x)
  | Challenge x => cases b <;> rfl

theorem unpack_sub [CommRing F] [CommRing E] (φ : F →+* E) (a b : PackedExpr F E) :
    (PackedExpr.sub φ a b).unpack φ = a.unpack φ - b.unpack φ := by
  cases a with
  | Val x =>
    cases b with
    | Val y => exact map_sub φ x y
    | Challenge y => rfl
  | Challenge x => cases b <;> rfl

theorem unpack_mul [CommRing F] [CommRing E] (φ : F →+* E) (a b : PackedExpr F E) :
    (PackedExpr.mul φ a b).unpack φ = a.unpack φ * b.unpack φ := by
  cases a with
  | Val x =>
    cases b with
    | Val y => exact map_mul φ x y
    | Challenge y => exact mul_comm y (φ x)
  | Challenge x => cases b <;> rfl

theorem unpack_neg [CommRing F] [CommRing E] (φ : F →+* E) (a : PackedExpr F E) :
    (PackedExpr.neg a).unpack φ = -(a.unpack φ) := by
  cases a with
  | Val x => exact map_neg φ x
  | Challenge x => rfl

theorem getD_map_unpack [CommRing F] [CommRing E] (φ : F →+* E)
    (l : List (PackedExpr F E)) (i : Nat) :
    (l.map (PackedExpr.unpack φ)).getD i 0 = (l.getD i (.Val 0)).unpack φ := by
  rcases Nat.lt_or_ge i l.length with hi | hi
  · rw [List.getD_eq_getElem?_getD, List.getD_eq_getElem?_getD,
      List.getElem?_eq_getElem hi, List.getElem?_eq_getElem (by simpa using hi)]
    simp
  · rw [List.getD_eq_getElem?_getD, List.getD_eq_getElem?_getD,
      List.getElem?_eq_none (by simpa using hi), List.getElem?_eq_none hi]
    simp [PackedExpr.unpack]

theorem verifierNodeStep_agree [CommRing F] [CommRing E] (φ : F →+* E)
    {r : ProverConstraintEvaluator F E} {vc : VerifierFolder E}
    (hvar : ∀ v : SymbolicVariable F, verifierEvalVarD vc v = (evalVarD r v).unpack φ)
    (hfr : vc.is_first_row = φ r.is_first_row) (hlr : vc.is_last_row = φ r.is_last_row)
    (htr : vc.is_transition = φ r.is_transition)
    (acc : List (PackedExpr F E)) (n : SymbolicExpressionNode F) :
    verifierNodeStep φ vc (acc.map (PackedExpr.unpack φ)) n =
      (evalNodeStep φ r acc n).unpack φ := by
  cases n with
  | Variable v => exact hvar v
  | IsFirstRow => exact hfr
  | IsLastRow => exact hlr
  | IsTransition => exact htr
  | Constant c => rfl
  | Add l ri d =>
    show _ + _ = _
    rw [getD_map_unpack, getD_map_unpack, ← unpack_add]
    rfl
  | Sub l ri d =>
    show _ - _ = _
    rw [getD_map_unpack, getD_map_unpack, ← unpack_sub]
    rfl
  | Neg x d =>
    show -(_) = _
    rw [getD_map_unpack, ← unpack_neg]
    rfl
  | Mul l ri d =>
    show _ * _ = _
    rw [getD_map_unpack, getD_map_unpack, ← unpack_mul]
    rfl

theorem verifierEvalNodes_agree [CommRing F] [CommRing E] (φ : F →+* E)
    {r : ProverConstraintEvaluator F E} {vc : VerifierFolder E}
    (hvar : ∀ v : SymbolicVariable F, verifierEvalVarD vc v = (evalVarD r v).unpack φ)
    (hfr : vc.is_first_row = φ r.is_first_row) (hlr : vc.is_last_row = φ r.is_last_row)
    (htr : vc.is_transition = φ r.is_transition) :
    ∀ (ns : List (SymbolicExpressionNode F)) (acc : List (PackedExpr F E)),
      verifierEvalNodesAux φ vc ns (acc.map (PackedExpr.unpack φ)) =
        (evalNodesAux φ r ns acc).map (PackedExpr.unpack φ) := by
  intro ns
  induction ns with
  | nil => intro acc; rfl
  | cons n ns ih =>
    intro acc
    rw [verifierEvalNodesAux, evalNodesAux]
    rw [show (acc.map (PackedExpr.unpack φ)) ++
        [verifierNodeStep φ vc (acc.map (PackedExpr.unpack φ)) n] =
      (acc ++ [evalNodeStep φ r acc n]).map (PackedExpr.unpack φ) by
        rw [List.map_append, verifierNodeStep_agree φ hvar hfr hlr htr]
        rfl]
    exact ih _

/-- Horner evaluation of the verifier accumulator. -/
theorem foldl_assertZero [CommRing E] (α : E) :
    ∀ (cs : List E) (a0 : E),
      cs.foldl (assertZeroStep α) a0 =
        a0 * α ^ cs.length +
          ∑ k ∈ Finset.range cs.length, α ^ (cs.length - 1 - k) * cs.getD k 0 := by
  intro cs
  induction cs with
  | nil => intro a0; simp
  | cons c cs ih =>
    intro a0
    rw [List.foldl_cons, ih, List.length_cons, Finset.sum_range_succ']
    have h1 : ∀ k, (cs.length + 1) - 1 - (k + 1) = cs.length - 1 - k := by intro k; omega
    have h2 : (cs.length + 1) - 1 - 0 = cs.length := by omega
    simp only [h1, h2, List.getD_cons_succ, List.getD_cons_zero]
    rw [assertZeroStep]
    ring

/-- C6: the verifier's Horner-style fold and the prover's explicit alpha-power
accumulation compute the same value. Whenever corresponding variables and
selectors evaluate equally (the verifier value is the lift of the prover's
packed value) and the verifier accumulator starts at zero, running
`eval_constraints` (which folds `acc := acc * α + constraint_k` over the built
DAG's constraints) returns exactly the prover's `accumulate` with the
highest-first alpha powers — both equal `Σ_k α^(C-1-k) · constraint_k`. -/
theorem verifier_horner_equals_prover_accumulate (F E : Type) [CommRing F] [CommRing E]
    [DecidableEq F] (φ : F →+* E) (heap : ExprHeap F) (roots : List Nat)
    (r : ProverConstraintEvaluator F E) (vc : VerifierFolder E)
    (hvar : ∀ v : SymbolicVariable F, verifierEvalVarD vc v = (evalVarD r v).unpack φ)
    (hfr : vc.is_first_row = φ r.is_first_row)
    (hlr : vc.is_last_row = φ r.is_last_row)
    (htr : vc.is_transition = φ r.is_transition)
    (hacc : vc.accumulator = 0) :
    evalConstraintsVerifier φ vc heap roots =
      accumulate φ r (build_symbolic_expr_dag heap roots)
        (((List.range (build_symbolic_expr_dag heap roots).constraint_idx.length).map
          (fun j => vc.alpha ^ j)).reverse) := by
  have hexprs : verifierEvalNodesAux φ vc (build_symbolic_expr_dag heap roots).nodes [] =
      (evalNodes φ r (build_symbolic_expr_dag heap roots).nodes).map
        (PackedExpr.unpack φ) :=
    verifierEvalNodes_agree φ hvar hfr hlr htr _ []
  rw [evalConstraintsVerifier]
  simp only [hexprs, hacc]
  rw [show (fun (acc : E) (idx : Nat) => assertZeroStep vc.alpha acc
      (((evalNodes φ r (build_symbolic_expr_dag heap roots).nodes).map
        (PackedExpr.unpack φ)).getD idx 0)) =
    (fun (acc : E) (idx : Nat) => assertZeroStep vc.alpha acc
      (((evalNodes φ r (build_symbolic_expr_dag heap roots).nodes).getD idx
        (.Val 0)).unpack φ)) from funext fun acc => funext fun idx => by
      rw [getD_map_unpack]]
  rw [← List.foldl_map
    (fun idx => ((evalNodes φ r (build_symbolic_expr_dag heap roots).nodes).getD idx
      (.Val 0)).unpack φ) (assertZeroStep vc.alpha)]
  rw [foldl_assertZero, zero_mul, zero_add, List.length_map]
  rw [accumulate_eq_sum]
  refine Finset.sum_congr rfl ?_
  intro k hk
  have hk2 := Finset.mem_range.mp hk
  congr 1
  rw [List.getD_eq_getElem?_getD, List.getElem?_eq_getElem (by simpa using hk2)]
  rw [List.getElem_map]
  rw [show (build_symbolic_expr_dag heap roots).constraint_idx[k] =
    (build_symbolic_expr_dag heap roots).constraint_idx.getD k 0 from
    (List.getD_eq_getElem _ _ hk2).symm]
  rfl

/-- C6 witness. -/
theorem verifier_horner_equals_prover_accumulate_witness :
    evalConstraintsVerifier (RingHom.id (ZMod 101))
        ⟨⟨[], []⟩, [], [], [], 0, 0, 0, 3, 0, [], []⟩
        [ExprShape.Constant 2] [0] =
      accumulate (RingHom.id (ZMod 101))
        ⟨⟨[], none⟩, [], [], [], 0, 0, 0, [], []⟩
        (build_symbolic_expr_dag [ExprShape.Constant 2] [0])
        (((List.range (build_symbolic_expr_dag (F := ZMod 101)
            [ExprShape.Constant 2] [0]).constraint_idx.length).map
          (fun j => (⟨⟨[], []⟩, [], [], [], 0, 0, 0, 3, 0, [], []⟩ :
            VerifierFolder (ZMod 101)).alpha ^ j)).reverse) :=
  verifier_horner_equals_prover_accumulate (ZMod 101) (ZMod 101) (RingHom.id (ZMod 101))
    [ExprShape.Constant 2] [0]
    ⟨⟨[], none⟩, [], [], [], 0, 0, 0, [], []⟩
    ⟨⟨[], []⟩, [], [], [], 0, 0, 0, 3, 0, [], []⟩
    (fun v => by
      rcases v with ⟨e, idx⟩
      cases e <;>
        first
          | rfl
          | (rename_i o; rcases o with _ | _ | o <;> rfl))
    rfl rfl rfl rfl

theorem scanNodesCpu_error_of_mem [Zero F] {inp : QuotientInput F E} {qs : Nat}
    {n : SymbolicExpressionNode F}
    (hn : ∀ rot, ∃ e, scanNodeCpu inp qs n rot = .error e) :
    ∀ {ns : List (SymbolicExpressionNode F)}, n ∈ ns →
      ∀ rot0, ∃ e, scanNodesCpu inp qs ns rot0 = .error e := by
  intro ns
  induction ns with
  | nil => intro h; simp at h
  | cons hd tl ih =>
    intro hmem rot0
    rcases List.mem_cons.mp hmem with rfl | htl
    · obtain ⟨e, he⟩ := hn rot0
      exact ⟨e, by rw [scanNodesCpu, he]⟩
    · cases hhd : scanNodeCpu inp qs hd rot0 with
      | error e => exact ⟨e, by rw [scanNodesCpu, hhd]⟩
      | ok rot2 =>
        obtain ⟨e, he⟩ := ih htl rot2
        exact ⟨e, by rw [scanNodesCpu, hhd]; exact he⟩

/-- C9: if a constraint references a `Permutation`, `Challenge`, or `Exposed`
entry while the corresponding challenge-phase data (after-challenge matrices,
challenges, exposed values) is absent, then the quotient evaluator's
pre-evaluation scan fails — its check of that variable panics with
"Challenge phase not supported", and the whole scan (run before any row is
evaluated) returns an error rather than a value — and the verifier's
`eval_var` panics with the same message. -/
theorem challenge_phase_absence (F E : Type) [CommRing F] [CommRing E]
    (dag : SymbolicExpressionDag F) (inp : QuotientInput F E) (vc : VerifierFolder E)
    (qs : Nat) (v : SymbolicVariable F)
    (hv : SymbolicExpressionNode.Variable v ∈ dag.nodes)
    (hcase :
      ((∃ o, v.entry = .Permutation o) ∧ inp.after_challenge = [] ∧
        vc.after_challenge = []) ∨
      (v.entry = .Challenge ∧ inp.challenges = [] ∧ vc.challenges = []) ∨
      (v.entry = .Exposed ∧ inp.exposed_values = [] ∧
        vc.exposed_values_after_challenge = [])) :
    (∀ rot, scanNodeCpu inp qs (.Variable v) rot =
      .error "Challenge phase not supported") ∧
    (∀ rot0, ∃ e, scanNodesCpu inp qs dag.nodes rot0 = .error e) ∧
    verifierEvalVarE vc v = .error "Challenge phase not supported" := by
  have hnode : ∀ rot, scanNodeCpu inp qs (.Variable v) rot =
      .error "Challenge phase not supported" := by
    intro rot
    rcases hcase with ⟨⟨o, ho⟩, hinp, _⟩ | ⟨ho, hinp, _⟩ | ⟨ho, hinp, _⟩ <;>
      simp [scanNodeCpu, ho, hinp]
  refine ⟨hnode, ?_, ?_⟩
  · exact scanNodesCpu_error_of_mem (fun rot => ⟨_, hnode rot⟩) hv
  · rcases hcase with ⟨⟨o, ho⟩, _, hvc⟩ | ⟨ho, _, hvc⟩ | ⟨ho, _, hvc⟩ <;>
      simp [verifierEvalVarE, ho, hvc]

/-- C9 witness. -/
theorem challenge_phase_absence_witness :
    scanNodeCpu (F := ZMod 101) (E := ZMod 101)
        ⟨none, [], [], [], [], []⟩ 4
        (.Variable ⟨Entry.Challenge, 0⟩) 5 = .error "Challenge phase not supported" ∧
    (∃ e, scanNodesCpu (F := ZMod 101) (E := ZMod 101)
        ⟨none, [], [], [], [], []⟩ 4
        [SymbolicExpressionNode.Variable ⟨Entry.Challenge, 0⟩] 0 = .error e) ∧
    verifierEvalVarE (F := ZMod 101)
        (⟨⟨[], []⟩, [], [], [], 0, 0, 0, 3, 0, [], []⟩ : VerifierFolder (ZMod 101))
        ⟨Entry.Challenge, 0⟩ = .error "Challenge phase not supported" := by
  obtain ⟨h1, h2, h3⟩ := challenge_phase_absence (ZMod 101) (ZMod 101)
    ⟨[SymbolicExpressionNode.Variable ⟨Entry.Challenge, 0⟩], [0]⟩
    ⟨none, [], [], [], [], []⟩
    ⟨⟨[], []⟩, [], [], [], 0, 0, 0, 3, 0, [], []⟩ 4 ⟨Entry.Challenge, 0⟩
    (by simp) (Or.inr (Or.inl ⟨rfl, rfl, rfl⟩))
  exact ⟨h1 5, h2 0, h3⟩

theorem ofOption_isOk (msg : String) (o : Option A) :
    (ofOption msg o).isOk = o.isSome := by
  cases o <;> rfl

theorem mkViewPair_get_isSome {T : Type} (m : Mat T) (li ni : Nat) (nn : Bool)
    (o idx : Nat) (hidx : idx < m.width) (ho : o ≤ 1) (ho1 : o = 1 → nn = true) :
    ((mkViewPair m li ni nn).get o idx).isSome = true := by
  match o, ho with
  | 0, _ =>
    rw [mkViewPair, ViewPair.get]
    rw [List.getElem?_eq_getElem (by simpa using hidx)]
    rfl
  | 1, _ =>
    rw [mkViewPair, ViewPair.get, ho1 rfl]
    show (((List.range m.width).map (fun c => m.data ni c))[idx]?).isSome = true
    rw [List.getElem?_eq_getElem (by simpa using hidx)]
    rfl

theorem scanNodeCpu_ok_preprocessed [Zero F] {inp : QuotientInput F E}
    {qs o idx r1 r2 : Nat}
    (h : scanNodeCpu inp qs (.Variable ⟨.Preprocessed o, idx⟩) r1 = .ok r2) :
    r1 ≤ r2 ∧ o ≤ r2 ∧ idx < inp.preprocessedWidth ∧
      ∃ m, inp.preprocessed = some m ∧ qs ≤ m.height := by
  simp only [scanNodeCpu] at h
  by_cases hw : idx < inp.preprocessedWidth
  · rw [if_pos hw] at h
    cases hm : inp.preprocessed with
    | none => simp only [hm] at h; exact absurd h (by simp)
    | some m =>
      simp only [hm] at h
      by_cases hh : qs ≤ m.height
      · rw [if_pos hh] at h
        obtain rfl : max r1 o = r2 := Except.ok.inj h
        exact ⟨Nat.le_max_left _ _, Nat.le_max_right _ _, hw, m, rfl, hh⟩
      · rw [if_neg hh] at h; exact absurd h (by simp)
  · rw [if_neg hw] at h; exact absurd h (by simp)

theorem scanNodeCpu_ok_main [Zero F] {inp : QuotientInput F E}
    {qs part o idx r1 r2 : Nat}
    (h : scanNodeCpu inp qs (.Variable ⟨.Main part o, idx⟩) r1 = .ok r2) :
    r1 ≤ r2 ∧ o ≤ r2 ∧ ∃ m, inp.partitioned_main[part]? = some m ∧ idx < m.width := by
  simp only [scanNodeCpu] at h
  cases hm : inp.partitioned_main[part]? with
  | none => simp only [hm] at h; exact absurd h (by simp)
  | some m =>
    simp only [hm] at h
    by_cases hw : idx < m.width
    · rw [if_pos hw] at h
      obtain rfl : max r1 o = r2 := Except.ok.inj h
      exact ⟨Nat.le_max_left _ _, Nat.le_max_right _ _, m, rfl, hw⟩
    · rw [if_neg hw] at h; exact absurd h (by simp)

theorem scanNodeCpu_ok_public [Zero F] {inp : QuotientInput F E}
    {qs idx r1 r2 : Nat}
    (h : scanNodeCpu inp qs (.Variable ⟨.Public, idx⟩) r1 = .ok r2) :
    r1 ≤ r2 ∧ idx < inp.public_values.length := by
  simp only [scanNodeCpu] at h
  by_cases hw : idx < inp.public_values.length
  · rw [if_pos hw] at h
    obtain rfl : r1 = r2 := Except.ok.inj h
    exact ⟨Nat.le_refl _, hw⟩
  · rw [if_neg hw] at h; exact absurd h (by simp)

theorem scanNodeCpu_ok_permutation [Zero F] {inp : QuotientInput F E}
    {qs o idx r1 r2 : Nat}
    (h : scanNodeCpu inp qs (.Variable ⟨.Permutation o, idx⟩) r1 = .ok r2) :
    r1 ≤ r2 ∧ o ≤ r2 ∧ ∃ m, inp.after_challenge[0]? = some m ∧ idx < m.width := by
  simp only [scanNodeCpu] at h
  cases hm : inp.after_challenge[0]? with
  | none => simp only [hm] at h; exact absurd h (by simp)
  | some m =>
    simp only [hm] at h
    by_cases hw : idx < m.width
    · rw [if_pos hw] at h
      obtain rfl : max r1 o = r2 := Except.ok.inj h
      exact ⟨Nat.le_max_left _ _, Nat.le_max_right _ _, m, rfl, hw⟩
    · rw [if_neg hw] at h; exact absurd h (by simp)

theorem scanNodeCpu_ok_challenge [Zero F] {inp : QuotientInput F E}
    {qs idx r1 r2 : Nat}
    (h : scanNodeCpu inp qs (.Variable ⟨.Challenge, idx⟩) r1 = .ok r2) :
    r1 ≤ r2 ∧ ∃ cs, inp.challenges[0]? = some cs ∧ idx < cs.length := by
  simp only [scanNodeCpu] at h
  cases hcs : inp.challenges[0]? with
  | none => simp only [hcs] at h; exact absurd h (by simp)
  | some cs =>
    simp only [hcs] at h
    by_cases hw : idx < cs.length
    · rw [if_pos hw] at h
      obtain rfl : r1 = r2 := Except.ok.inj h
      exact ⟨Nat.le_refl _, cs, rfl, hw⟩
    · rw [if_neg hw] at h; exact absurd h (by simp)

theorem scanNodeCpu_ok_exposed [Zero F] {inp : QuotientInput F E}
    {qs idx r1 r2 : Nat}
    (h : scanNodeCpu inp qs (.Variable ⟨.Exposed, idx⟩) r1 = .ok r2) :
    r1 ≤ r2 ∧ ∃ es, inp.exposed_values[0]? = some es ∧ idx < es.length := by
  simp only [scanNodeCpu] at h
  cases hes : inp.exposed_values[0]? with
  | none => simp only [hes] at h; exact absurd h (by simp)
  | some es =>
    simp only [hes] at h
    by_cases hw : idx < es.length
    · rw [if_pos hw] at h
      obtain rfl : r1 = r2 := Except.ok.inj h
      exact ⟨Nat.le_refl _, es, rfl, hw⟩
    · rw [if_neg hw] at h; exact absurd h (by simp)

theorem scanNodeCpu_rot_le [Zero F] {inp : QuotientInput F E} {qs : Nat}
    {n : SymbolicExpressionNode F} {r1 r2 : Nat}
    (h : scanNodeCpu inp qs n r1 = .ok r2) : r1 ≤ r2 := by
  cases n with
  | Variable v =>
    obtain ⟨e, idx⟩ := v
    cases e with
    | Preprocessed o => exact (scanNodeCpu_ok_preprocessed h).1
    | Main part o => exact (scanNodeCpu_ok_main h).1
    | Public => exact (scanNodeCpu_ok_public h).1
    | Permutation o => exact (scanNodeCpu_ok_permutation h).1
    | Challenge => exact (scanNodeCpu_ok_challenge h).1
    | Exposed => exact (scanNodeCpu_ok_exposed h).1
  | IsFirstRow => exact Nat.le_of_eq (Except.ok.inj h)
  | IsLastRow => exact Nat.le_of_eq (Except.ok.inj h)
  | IsTransition => exact Nat.le_of_eq (Except.ok.inj h)
  | Constant c => exact Nat.le_of_eq (Except.ok.inj h)
  | Add l ri d => exact Nat.le_of_eq (Except.ok.inj h)
  | Sub l ri d => exact Nat.le_of_eq (Except.ok.inj h)
  | Neg x d => exact Nat.le_of_eq (Except.ok.inj h)
  | Mul l ri d => exact Nat.le_of_eq (Except.ok.inj h)

theorem scanNodesCpu_rot_le [Zero F] {inp : QuotientInput F E} {qs : Nat} :
    ∀ {ns : List (SymbolicExpressionNode F)} {r1 r2 : Nat},
      scanNodesCpu inp qs ns r1 = .ok r2 → r1 ≤ r2 := by
  intro ns
  induction ns with
  | nil =>
    intro r1 r2 h
    obtain rfl : r1 = r2 := by exact Except.ok.inj h
    exact Nat.le_refl _
  | cons hd tl ih =>
    intro r1 r2 h
    rw [scanNodesCpu] at h
    cases hhd : scanNodeCpu inp qs hd r1 with
    | error e => rw [hhd] at h; exact absurd h (by simp)
    | ok rmid =>
      rw [hhd] at h
      exact Nat.le_trans (scanNodeCpu_rot_le hhd) (ih h)

theorem scanNodesCpu_elem [Zero F] {inp : QuotientInput F E} {qs : Nat} :
    ∀ {ns : List (SymbolicExpressionNode F)} {r1 r2 : Nat},
      scanNodesCpu inp qs ns r1 = .ok r2 →
      ∀ n ∈ ns, ∃ ra rb, scanNodeCpu inp qs n ra = .ok rb ∧ rb ≤ r2 := by
  intro ns
  induction ns with
  | nil => intro r1 r2 _ n hn; simp at hn
  | cons hd tl ih =>
    intro r1 r2 h n hn
    rw [scanNodesCpu] at h
    cases hhd : scanNodeCpu inp qs hd r1 with
    | error e => rw [hhd] at h; exact absurd h (by simp)
    | ok rmid =>
      rw [hhd] at h
      rcases List.mem_cons.mp hn with rfl | htl
      · exact ⟨r1, rmid, hhd, scanNodesCpu_rot_le h⟩
      · exact ih h n htl

theorem isSome_map {A B : Type} (f : A → B) (o : Option A) :
    (o.map f).isSome = o.isSome := by
  cases o <;> rfl

theorem mkRowEvaluator_next_materialized [CommRing F] [CommRing E]
    (inp : QuotientInput F E) (sels : Selectors F) (qs ns i : Nat) :
    (mkRowEvaluator inp sels qs ns true i).preprocessed.next.isSome = true ∧
    (∀ vp ∈ (mkRowEvaluator inp sels qs ns true i).partitioned_main,
      vp.next.isSome = true) ∧
    (∀ vp ∈ (mkRowEvaluator inp sels qs ns true i).after_challenge,
      vp.next.isSome = true) := by
  refine ⟨rfl, ?_, ?_⟩
  · intro vp hvp
    obtain ⟨m, _, rfl⟩ := List.mem_map.mp hvp
    rfl
  · intro vp hvp
    obtain ⟨m, _, rfl⟩ := List.mem_map.mp hvp
    rfl

/-- C8: the quotient evaluator's single pre-row scan performs every index
check; whenever it completes without panicking, every per-row access made by
`eval_var` succeeds (for the data model's row offsets 0 and 1): the evaluator
value of every variable of the DAG is defined, the matrices required at row
offset 1 force `rot > 0` so the next-row views are materialized, and a
`Preprocessed` reference additionally guarantees the preprocessed matrix is
present with height at least the quotient-domain size. -/
theorem scan_guards_row_evaluation (F E : Type) [CommRing F] [CommRing E]
    (dag : SymbolicExpressionDag F) (inp : QuotientInput F E) (sels : Selectors F)
    (qs next_step i rot : Nat)
    (hscan : scanNodesCpu inp qs dag.nodes 0 = .ok rot)
    (v : SymbolicVariable F) (hv : SymbolicExpressionNode.Variable v ∈ dag.nodes)
    (hoff : v.entry.offsetOf ≤ 1) :
    (evalVarE (mkRowEvaluator inp sels qs next_step (decide (0 < rot)) i) v).isOk =
      true ∧
    (v.entry.offsetOf = 1 → 0 < rot) ∧
    (∀ o, v.entry = .Preprocessed o →
      ∃ m, inp.preprocessed = some m ∧ qs ≤ m.height) ∧
    (decide (0 < rot) = true →
      (mkRowEvaluator inp sels qs next_step (decide (0 < rot)) i).preprocessed.next.isSome
          = true ∧
      (∀ vp ∈ (mkRowEvaluator inp sels qs next_step
          (decide (0 < rot)) i).partitioned_main, vp.next.isSome = true) ∧
      (∀ vp ∈ (mkRowEvaluator inp sels qs next_step
          (decide (0 < rot)) i).after_challenge, vp.next.isSome = true)) := by
  obtain ⟨ra, rb, hnode, hrb⟩ := scanNodesCpu_elem hscan _ hv
  have hmat : decide (0 < rot) = true →
      (mkRowEvaluator inp sels qs next_step (decide (0 < rot)) i).preprocessed.next.isSome
          = true ∧
      (∀ vp ∈ (mkRowEvaluator inp sels qs next_step
          (decide (0 < rot)) i).partitioned_main, vp.next.isSome = true) ∧
      (∀ vp ∈ (mkRowEvaluator inp sels qs next_step
          (decide (0 < rot)) i).after_challenge, vp.next.isSome = true) := by
    intro hb
    rw [hb]
    exact mkRowEvaluator_next_materialized inp sels qs next_step i
  obtain ⟨e, idx⟩ := v
  have hnn : ∀ o : Nat, o ≤ rb → o = 1 → decide (0 < rot) = true := by
    intro o hle ho1
    subst ho1
    simp only [decide_eq_true_eq]
    omega
  cases e with
  | Preprocessed o =>
    obtain ⟨h1, h2, hw, m, hm, hh⟩ := scanNodeCpu_ok_preprocessed hnode
    refine ⟨?_, ?_, fun _ _ => ⟨m, hm, hh⟩, hmat⟩
    · simp only [evalVarE]
      rw [ofOption_isOk, isSome_map]
      apply mkViewPair_get_isSome
      · have hwm : inp.preprocessedWidth = m.width := by
          rw [QuotientInput.preprocessedWidth, hm]
          rfl
        show idx < ((inp.preprocessed.getD Mat.empty)).width
        rw [hm]
        show idx < m.width
        omega
      · exact hoff
      · intro ho1
        exact hnn o h2 ho1
    · intro ho1
      have ho1n : o = 1 := ho1
      omega
  | Main part o =>
    obtain ⟨h1, h2, m, hm, hw⟩ := scanNodeCpu_ok_main hnode
    refine ⟨?_, ?_, fun o2 hcon => by exact absurd hcon (by simp), hmat⟩
    · simp only [evalVarE]
      rw [ofOption_isOk, isSome_map]
      rw [show (mkRowEvaluator inp sels qs next_step (decide (0 < rot)) i).partitioned_main =
        inp.partitioned_main.map (fun mm => mkViewPair mm (i % qs)
          ((i + next_step) % qs) (decide (0 < rot))) from rfl]
      rw [List.getElem?_map, hm]
      rw [Option.map_some']
      rw [Option.some_bind]
      exact mkViewPair_get_isSome _ _ _ _ _ _ hw hoff (fun ho1 => hnn o h2 ho1)
    · intro ho1
      have ho1n : o = 1 := ho1
      omega
  | Public =>
    obtain ⟨h1, hw⟩ := scanNodeCpu_ok_public hnode
    refine ⟨?_, by intro hcon; exact absurd hcon (by simp [Entry.offsetOf]),
      fun o2 hcon => by exact absurd hcon (by simp), hmat⟩
    simp only [evalVarE]
    rw [ofOption_isOk, isSome_map]
    rw [show (mkRowEvaluator inp sels qs next_step (decide (0 < rot)) i).public_values =
      inp.public_values from rfl]
    rw [List.getElem?_eq_getElem hw]
    rfl
  | Permutation o =>
    obtain ⟨h1, h2, m, hm, hw⟩ := scanNodeCpu_ok_permutation hnode
    refine ⟨?_, ?_, fun o2 hcon => by exact absurd hcon (by simp), hmat⟩
    · simp only [evalVarE]
      rw [ofOption_isOk, isSome_map]
      rw [show (mkRowEvaluator inp sels qs next_step (decide (0 < rot)) i).after_challenge =
        inp.after_challenge.map (fun mm => mkViewPair mm (i % qs)
          ((i + next_step) % qs) (decide (0 < rot))) from rfl]
      rw [List.getElem?_map, hm]
      rw [Option.map_some']
      rw [Option.some_bind]
      exact mkViewPair_get_isSome _ _ _ _ _ _ hw hoff (fun ho1 => hnn o h2 ho1)
    · intro ho1
      have ho1n : o = 1 := ho1
      omega
  | Challenge =>
    obtain ⟨h1, cs, hcs, hw⟩ := scanNodeCpu_ok_challenge hnode
    refine ⟨?_, by intro hcon; exact absurd hcon (by simp [Entry.offsetOf]),
      fun o2 hcon => by exact absurd hcon (by simp), hmat⟩
    simp only [evalVarE]
    rw [show (mkRowEvaluator inp sels qs next_step (decide (0 < rot)) i).challenges =
      inp.challenges from rfl]
    rw [hcs]
    rw [ofOption_isOk, isSome_map]
    rw [List.getElem?_eq_getElem hw]
    rfl
  | Exposed =>
    obtain ⟨h1, es, hes, hw⟩ := scanNodeCpu_ok_exposed hnode
    refine ⟨?_, by intro hcon; exact absurd hcon (by simp [Entry.offsetOf]),
      fun o2 hcon => by exact absurd hcon (by simp), hmat⟩
    simp only [evalVarE]
    rw [show (mkRowEvaluator inp sels qs next_step
      (decide (0 < rot)) i).exposed_values_after_challenge = inp.exposed_values from rfl]
    rw [hes]
    rw [ofOption_isOk, isSome_map]
    rw [List.getElem?_eq_getElem hw]
    rfl

/-- C8 witness. -/
theorem scan_guards_row_evaluation_witness :
    (evalVarE (mkRowEvaluator (F := ZMod 101) (E := ZMod 101)
        ⟨some ⟨1, 4, fun _ _ => 2⟩, [⟨2, 4, fun _ _ => 3⟩], [⟨1, 4, fun _ _ => 5⟩],
          [[7]], [9], [[11]]⟩
        ⟨[], [], [], []⟩ 4 1 (decide (0 < 1)) 0)
      ⟨Entry.Main 0 1, 0⟩).isOk = true ∧
    ((⟨Entry.Main 0 1, 0⟩ : SymbolicVariable (ZMod 101)).entry.offsetOf = 1 → 0 < 1) ∧
    (∀ o, (⟨Entry.Main 0 1, 0⟩ : SymbolicVariable (ZMod 101)).entry = .Preprocessed o →
      ∃ m, (⟨some ⟨1, 4, fun _ _ => 2⟩, [⟨2, 4, fun _ _ => 3⟩], [⟨1, 4, fun _ _ => 5⟩],
          [[7]], [9], [[11]]⟩ : QuotientInput (ZMod 101) (ZMod 101)).preprocessed = some m ∧
        4 ≤ m.height) ∧
    (decide (0 < 1) = true →
      (mkRowEvaluator (F := ZMod 101) (E := ZMod 101)
          ⟨some ⟨1, 4, fun _ _ => 2⟩, [⟨2, 4, fun _ _ => 3⟩], [⟨1, 4, fun _ _ => 5⟩],
            [[7]], [9], [[11]]⟩
          ⟨[], [], [], []⟩ 4 1 (decide (0 < 1)) 0).preprocessed.next.isSome = true ∧
      (∀ vp ∈ (mkRowEvaluator (F := ZMod 101) (E := ZMod 101)
          ⟨some ⟨1, 4, fun _ _ => 2⟩, [⟨2, 4, fun _ _ => 3⟩], [⟨1, 4, fun _ _ => 5⟩],
            [[7]], [9], [[11]]⟩
          ⟨[], [], [], []⟩ 4 1 (decide (0 < 1)) 0).partitioned_main,
        vp.next.isSome = true) ∧
      (∀ vp ∈ (mkRowEvaluator (F := ZMod 101) (E := ZMod 101)
          ⟨some ⟨1, 4, fun _ _ => 2⟩, [⟨2, 4, fun _ _ => 3⟩], [⟨1, 4, fun _ _ => 5⟩],
            [[7]], [9], [[11]]⟩
          ⟨[], [], [], []⟩ 4 1 (decide (0 < 1)) 0).after_challenge,
        vp.next.isSome = true)) :=
  scan_guards_row_evaluation (ZMod 101) (ZMod 101)
    ⟨[SymbolicExpressionNode.Variable ⟨Entry.Main 0 1, 0⟩], [0]⟩
    ⟨some ⟨1, 4, fun _ _ => 2⟩, [⟨2, 4, fun _ _ => 3⟩], [⟨1, 4, fun _ _ => 5⟩],
      [[7]], [9], [[11]]⟩
    ⟨[], [], [], []⟩ 4 1 0 1 rfl ⟨Entry.Main 0 1, 0⟩ (by simp) (by decide)

end StarkBackend
